import Mathlib

/-!
# Verification of `puprelease/util.py` text-layout utilities

Shallow embedding of the console-formatting module: `linearize`, `rewrap`
(which delegates to Python's `textwrap.fill` with default options), and
`KeyValueTable.print_row`.  Strings are modelled as `List Char`; the
Python character classes (`re`'s `\s`, `textwrap`'s whitespace set, `\w`)
are modelled faithfully for the ASCII / Latin-1 range (Lean's `Char.isAlpha`
and `Char.isDigit` are ASCII predicates; characters outside this range are
classified as non-word, non-space).  Fallible code (`textwrap.fill` raises
`ValueError` for non-positive width) is modelled with `Except`.
-/

set_option maxHeartbeats 1000000

/-- The whitespace set of Python's `textwrap` module
(`textwrap._whitespace = '\t\n\x0b\x0c\r '`). -/
def isWrapSpace (c : Char) : Bool :=
  c = '\t' || c = '\n' || c = '\x0b' || c = '\x0c' || c = '\r' || c = ' '

/-- Model of the character class `\s` of Python's `re` module (and of the
set stripped by `str.strip()`): the six ASCII whitespace characters plus
the Latin-1 whitespace characters. -/
def isPySpace (c : Char) : Bool :=
  isWrapSpace c || c = '\x1c' || c = '\x1d' || c = '\x1e' || c = '\x1f' ||
    c = '\x85' || c = '\xa0'

/-- Model of the character class `\w` (word character), ASCII-faithful. -/
def isWordChar (c : Char) : Bool :=
  c.isAlphanum || c = '_'

/-- Model of `textwrap`'s "letter" class `[^\d\W]` (word char, not a digit). -/
def isLetterChar (c : Char) : Bool :=
  c.isAlpha || c = '_'

/-- Model of `textwrap`'s `word_punct` class `[\w!"\'&.,?]`. -/
def isWordPunct (c : Char) : Bool :=
  isWordChar c || c = '!' || c = '"' || c = '\'' || c = '&' || c = '.' ||
    c = ',' || c = '?'

theorem isWrapSpace_isPySpace {c : Char} (h : isWrapSpace c = true) :
    isPySpace c = true := by
  simp [isPySpace, h]

/-- `str.expandtabs(8)`: replace each tab with spaces up to the next multiple
of 8, tracking the current column (`\n` and `\r` reset the column). -/
def expandTabsAux : Nat → List Char → List Char
  | _, [] => []
  | col, c :: r =>
    if c = '\t' then
      List.replicate (8 - col % 8) ' ' ++ expandTabsAux (col + (8 - col % 8)) r
    else if c = '\n' || c = '\r' then
      c :: expandTabsAux 0 r
    else
      c :: expandTabsAux (col + 1) r

/-- `TextWrapper._munge_whitespace` with the default options
(`expand_tabs=True, replace_whitespace=True`): expand tabs, then translate
every character of `textwrap._whitespace` to a space. -/
def munge (t : List Char) : List Char :=
  (expandTabsAux 0 t).map (fun c => if isWrapSpace c then ' ' else c)

/-- Operational model of `re.sub(r"\s+", " ", t)`: replace every maximal run
of `\s` characters with a single space.  The flag records whether the
previous character belonged to a whitespace run. -/
def collapseWS : Bool → List Char → List Char
  | _, [] => []
  | inRun, c :: r =>
    if isPySpace c then
      if inRun then collapseWS true r else ' ' :: collapseWS true r
    else
      c :: collapseWS false r

/-- `str.strip()`: remove leading and trailing whitespace. -/
def stripL (t : List Char) : List Char :=
  ((t.dropWhile isPySpace).reverse.dropWhile isPySpace).reverse

/-- `linearize` from `util.py`: `re.sub(r"\s+", " ", multiline).strip()`. -/
def linearizeL (t : List Char) : List Char :=
  stripL (collapseWS false t)

/-- `linearize(multiline: str) -> str`. -/
def linearize (multiline : String) : String :=
  String.mk (linearizeL multiline.data)

/-- Decidable statement that a character list contains no two adjacent
`\s` characters. -/
def noDoubleWS : List Char → Bool
  | a :: b :: rest => (!(isPySpace a && isPySpace b)) && noDoubleWS (b :: rest)
  | _ => true

theorem collapseWS_chars {b : Bool} {t : List Char} {c : Char}
    (h : c ∈ collapseWS b t) : c = ' ' ∨ isPySpace c = false := by
  induction t generalizing b with
  | nil => simp [collapseWS] at h
  | cons d r ih =>
    by_cases hd : isPySpace d = true
    · cases b with
      | true =>
        simp only [collapseWS, hd, if_true] at h
        exact ih h
      | false =>
        simp only [collapseWS, hd, if_true, Bool.false_eq_true, if_false,
          List.mem_cons] at h
        rcases h with h | h
        · exact Or.inl h
        · exact ih h
    · simp only [collapseWS, hd, Bool.false_eq_true, if_false,
        List.mem_cons] at h
      rcases h with rfl | h
      · exact Or.inr (by simpa using hd)
      · exact ih h

/-- `collapseWS true` never emits a leading whitespace character. -/
theorem collapseWS_true_head (t : List Char) :
    collapseWS true t = [] ∨
      ∃ c s, collapseWS true t = c :: s ∧ isPySpace c = false := by
  induction t with
  | nil => exact Or.inl rfl
  | cons d r ih =>
    by_cases hd : isPySpace d = true
    · simpa only [collapseWS, hd, if_true] using ih
    · exact Or.inr ⟨d, collapseWS false r, by simp [collapseWS, hd], by simpa using hd⟩

theorem noDoubleWS_collapse (t : List Char) (b : Bool) :
    noDoubleWS (collapseWS b t) = true := by
  induction t generalizing b with
  | nil => simp [collapseWS, noDoubleWS]
  | cons d r ih =>
    by_cases hd : isPySpace d = true
    · cases b with
      | true => simpa only [collapseWS, hd, if_true] using ih true
      | false =>
        simp only [collapseWS, hd, if_true]
        rcases collapseWS_true_head r with h | ⟨c, s, h, hc⟩
        · simp [h, noDoubleWS]
        · rw [h]
          have := ih true
          rw [h] at this
          simp [noDoubleWS, hc, this]
    · simp only [collapseWS, hd, Bool.false_eq_true, if_false]
      cases hcr : collapseWS false r with
      | nil => simp [noDoubleWS]
      | cons e s =>
        have := ih false
        rw [hcr] at this
        simp [noDoubleWS, this, hd]

theorem noDoubleWS_tail {a : Char} {l : List Char}
    (h : noDoubleWS (a :: l) = true) : noDoubleWS l = true := by
  cases l with
  | nil => rfl
  | cons b m =>
    simp only [noDoubleWS, Bool.and_eq_true] at h
    exact h.2

theorem noDoubleWS_append_left {l₁ l₂ : List Char}
    (h : noDoubleWS (l₁ ++ l₂) = true) : noDoubleWS l₁ = true := by
  induction l₁ with
  | nil => rfl
  | cons a l ih =>
    cases l with
    | nil => rfl
    | cons b m =>
      simp only [List.cons_append, noDoubleWS, Bool.and_eq_true] at h ⊢
      exact ⟨h.1, ih h.2⟩

theorem noDoubleWS_append_right {l₁ l₂ : List Char}
    (h : noDoubleWS (l₁ ++ l₂) = true) : noDoubleWS l₂ = true := by
  induction l₁ with
  | nil => exact h
  | cons a l ih =>
    rw [List.cons_append] at h
    exact ih (noDoubleWS_tail h)

/-- `noDoubleWS` is preserved by taking infixes. -/
theorem noDoubleWS_infixOfSource {l₁ l₂ : List Char} (h : l₁ <:+: l₂)
    (hl : noDoubleWS l₂ = true) : noDoubleWS l₁ = true := by
  obtain ⟨s, t, rfl⟩ := h
  rw [List.append_assoc] at hl
  exact noDoubleWS_append_left (noDoubleWS_append_right hl)

theorem stripL_infixOfSource (t : List Char) : stripL t <:+: t := by
  unfold stripL
  have h1 : ((t.dropWhile isPySpace).reverse.dropWhile isPySpace) <:+
      (t.dropWhile isPySpace).reverse := List.dropWhile_suffix _
  have h2 : ((t.dropWhile isPySpace).reverse.dropWhile isPySpace).reverse <+:
      t.dropWhile isPySpace := by
    have := h1.reverse
    simpa using this
  exact h2.isInfix.trans (List.dropWhile_suffix isPySpace).isInfix

theorem stripL_sublist (t : List Char) : (stripL t).Sublist t :=
  (stripL_infixOfSource t).sublist

theorem linearizeL_chars {t : List Char} {c : Char}
    (h : c ∈ linearizeL t) : c = ' ' ∨ isPySpace c = false :=
  collapseWS_chars ((stripL_sublist _).mem h)

theorem noDoubleWS_linearizeL (t : List Char) :
    noDoubleWS (linearizeL t) = true :=
  noDoubleWS_infixOfSource (stripL_infixOfSource _) (noDoubleWS_collapse t false)

/-- The head of `dropWhile p` does not satisfy `p`. -/
theorem head_dropWhile_false {p : Char → Bool} {l : List Char} {c : Char}
    {s : List Char} (h : l.dropWhile p = c :: s) : p c = false := by
  induction l with
  | nil => simp at h
  | cons a r ih =>
    by_cases ha : p a = true
    · rw [List.dropWhile_cons_of_pos ha] at h
      exact ih h
    · rw [List.dropWhile_cons_of_neg (by simpa using ha)] at h
      cases h
      simpa using ha

theorem stripL_head {t : List Char} {c : Char} {s : List Char}
    (h : stripL t = c :: s) : isPySpace c = false := by
  unfold stripL at h
  -- stripL t is a prefix of dropWhile isPySpace t, and nonempty
  rcases hd : t.dropWhile isPySpace with _ | ⟨d, r⟩
  · rw [hd] at h; simp at h
  · have hdp : isPySpace d = false := head_dropWhile_false hd
    rw [hd] at h
    -- ((d :: r).reverse.dropWhile isPySpace).reverse = c :: s
    have hpre : (((d :: r).reverse.dropWhile isPySpace).reverse) <+: (d :: r) := by
      have := (List.dropWhile_suffix (l := (d :: r).reverse) isPySpace).reverse
      simpa using this
    rw [h] at hpre
    obtain ⟨u, hu⟩ := hpre
    cases hu
    exact hdp

theorem stripL_getLast {t : List Char} {c : Char} {s : List Char}
    (h : stripL t = s ++ [c]) : isPySpace c = false := by
  unfold stripL at h
  have h' : (t.dropWhile isPySpace).reverse.dropWhile isPySpace =
      (s ++ [c]).reverse := by
    rw [← h]; simp [stripL]
  rw [List.reverse_append] at h'
  simp only [List.reverse_singleton, List.singleton_append] at h'
  exact head_dropWhile_false h'

/-- Does the list start with a letter, an optional hyphen, and a letter?
Used both for the lookahead `(?=[letter]-?[letter])` after a hyphenated-word
break and (applied to the reversed consumed prefix) for the lookbehind
`(?<=[letter]{2}-)|(?<=[letter]-[letter]-)` before it. -/
def letterOptHyphenLetter : List Char → Bool
  | a :: b :: r =>
    isLetterChar a &&
      (isLetterChar b ||
        (b = '-' && match r with | c :: _ => isLetterChar c | [] => false))
  | _ => false

/-- Does the list start with a word character? -/
def headIsWord : List Char → Bool
  | c :: _ => isWordChar c
  | [] => false

/-- The lookahead `(?=-{2,}\w)`: at least two hyphens followed directly by a
word character. -/
def emDashAhead (t : List Char) : Bool :=
  2 ≤ (t.takeWhile (· = '-')).length && headIsWord (t.dropWhile (· = '-'))

/-- Scan for the end of a word chunk of `textwrap.TextWrapper.wordsep_re`:
the lazy `[^\s]+?` followed by (in this order) a consumed hyphen at a
hyphenated-word break, the end-of-word lookahead `(?=\s|$)`, or the
em-dash-ahead lookahead `(?<=word_punct)(?=-{2,}\w)`.  `rev` is the
non-empty reversed list of consumed characters; returns the finished chunk
and the remaining input. -/
def wordScan (rev : List Char) : List Char → List Char × List Char
  | [] => (rev.reverse, [])
  | c :: rest2 =>
    if c = '-' && letterOptHyphenLetter rev && letterOptHyphenLetter rest2 then
      (('-' :: rev).reverse, rest2)
    else if isWrapSpace c then
      (rev.reverse, c :: rest2)
    else if (match rev with | p :: _ => isWordPunct p | [] => false) &&
        emDashAhead (c :: rest2) then
      (rev.reverse, c :: rest2)
    else
      wordScan (c :: rev) rest2

theorem wordScan_rest_length (rev rest : List Char) :
    (wordScan rev rest).2.length ≤ rest.length := by
  induction rest generalizing rev with
  | nil => simp [wordScan]
  | cons c r ih =>
    unfold wordScan
    split
    · simp
    · split
      · simp
      · split
        · simp
        · exact Nat.le_trans (ih (c :: rev)) (Nat.le_succ _)

theorem wordScan_flatten (rev rest : List Char) :
    (wordScan rev rest).1 ++ (wordScan rev rest).2 = rev.reverse ++ rest := by
  induction rest generalizing rev with
  | nil => simp [wordScan]
  | cons c r ih =>
    unfold wordScan
    split
    · rename_i hcond
      simp only [Bool.and_eq_true, decide_eq_true_eq] at hcond
      simp [hcond.1.1]
    · split
      · simp
      · split
        · simp
        · rw [ih (c :: rev)]
          simp

theorem wordScan_chunk_ne_nil {rev : List Char} (h : rev ≠ []) (rest : List Char) :
    (wordScan rev rest).1 ≠ [] := by
  induction rest generalizing rev with
  | nil => simpa [wordScan]
  | cons c r ih =>
    unfold wordScan
    split
    · simp
    · split
      · simpa
      · split
        · simpa
        · exact ih (by simp)

/-- The chunk splitter of `textwrap.TextWrapper._split` with
`break_on_hyphens=True`: the leftmost-match scan of `wordsep_re`.
`prev` is the character preceding the current position (for the
lookbehinds), `none` at the start of the string.  Whitespace runs,
em-dash runs between words, and (possibly hyphen-split) words each
become chunks. -/
def chunksAux (prev : Option Char) (t : List Char) : List (List Char) :=
  match h : t with
  | [] => []
  | c :: rest =>
    if hw : isWrapSpace c then
      let run := t.takeWhile isWrapSpace
      run :: chunksAux (some (run.getLastD c)) (t.dropWhile isWrapSpace)
    else if (match prev with | some p => isWordPunct p | none => false) &&
        c = '-' && emDashAhead t then
      let run := t.takeWhile (· = '-')
      run :: chunksAux (some '-') (t.dropWhile (· = '-'))
    else
      let s := wordScan [c] rest
      s.1 :: chunksAux (some (s.1.getLastD c)) s.2
  termination_by t.length
  decreasing_by
  · rw [h, List.dropWhile_cons_of_pos hw, List.length_cons]
    exact Nat.lt_succ_of_le (List.dropWhile_sublist _).length_le
  · rename_i hcond
    simp only [Bool.and_eq_true, decide_eq_true_eq] at hcond
    rw [h, List.dropWhile_cons_of_pos (by simp [hcond.1.2]), List.length_cons]
    exact Nat.lt_succ_of_le (List.dropWhile_sublist _).length_le
  · simp only [List.length_cons]
    exact Nat.lt_succ_of_le (wordScan_rest_length [c] rest)

/-- `TextWrapper._split(text)`: chunk the text and drop empty chunks. -/
def splitChunks (t : List Char) : List (List Char) :=
  (chunksAux none t).filter (fun c => !c.isEmpty)

/-- Total length of a line under construction (`sum(map(len, cur_line))`). -/
def sumLens (cs : List (List Char)) : Nat :=
  (cs.map List.length).sum

/-- The inner greedy loop of `TextWrapper._wrap_chunks`: keep taking chunks
while `cur_len + len(chunk) <= width`; return the taken chunks and the rest. -/
def greedyTake (width : Nat) (curLen : Nat) : List (List Char) →
    List (List Char) × List (List Char)
  | [] => ([], [])
  | c :: rest =>
    if curLen + c.length ≤ width then
      let s := greedyTake width (curLen + c.length) rest
      (c :: s.1, s.2)
    else
      ([], c :: rest)

/-- `chunk.rfind('-', 0, hi)` restricted to a prefix already taken:
index of the last hyphen, if any. -/
def rfindHyphenAux : List Char → Nat → Option Nat → Option Nat
  | [], _, acc => acc
  | c :: r, i, acc => rfindHyphenAux r (i + 1) (if c = '-' then some i else acc)

def rfindHyphen (l : List Char) : Option Nat :=
  rfindHyphenAux l 0 none

/-- `TextWrapper._handle_long_word` with the default options
(`break_long_words=True, break_on_hyphens=True`): chop off the largest
piece of the too-long chunk that still fits (preferring to break after the
last hyphen in the fitting window when one usefully exists), append it to
the current line, and push the remainder back. -/
def hlwSpaceLeft (width curLen : Nat) : Nat :=
  if width < 1 then 1 else width - curLen

/-- The number of characters of the too-long chunk moved onto the current
line: `space_left`, or one past the last hyphen in the fitting window when
`break_on_hyphens` finds a useful break point. -/
def hlwEndIdx (width curLen : Nat) (chunk : List Char) : Nat :=
  if hlwSpaceLeft width curLen < chunk.length then
    match rfindHyphen (chunk.take (hlwSpaceLeft width curLen)) with
    | some i =>
      if 0 < i && (chunk.take i).any (fun c => !(c = '-')) then i + 1
      else hlwSpaceLeft width curLen
    | none => hlwSpaceLeft width curLen
  else hlwSpaceLeft width curLen

def handleLongWord (width curLen : Nat) (curLine : List (List Char))
    (chunk : List Char) : List (List Char) × List Char :=
  (curLine ++ [chunk.take (hlwEndIdx width curLen chunk)],
    chunk.drop (hlwEndIdx width curLen chunk))

/-- `chunk.strip() == ''`: the chunk consists only of whitespace. -/
def stripEmpty (c : List Char) : Bool :=
  c.all isPySpace

/-- Does the chunk list start with an all-whitespace chunk?  (The
`chunks[-1].strip() == ''` test for the leading-whitespace drop.) -/
def headStripEmpty : List (List Char) → Bool
  | c :: _ => stripEmpty c
  | [] => false

/-- Drop the final chunk of the line if it is pure whitespace
(the `drop_whitespace` handling at the end of each line). -/
def dropTrailWS (cur : List (List Char)) : List (List Char) :=
  match cur.getLast? with
  | some l => if stripEmpty l then cur.dropLast else cur
  | none => cur

/-- Termination measure for the outer loop: every iteration either drops a
chunk or shortens the first remaining chunk. -/
def chunkMeasure (cs : List (List Char)) : Nat :=
  (cs.map (fun c => c.length + 1)).sum


theorem greedyTake_append (width curLen : Nat) (cs : List (List Char)) :
    (greedyTake width curLen cs).1 ++ (greedyTake width curLen cs).2 = cs := by
  induction cs generalizing curLen with
  | nil => simp [greedyTake]
  | cons c rest ih =>
    unfold greedyTake
    split
    · simpa using ih (curLen + c.length)
    · simp

theorem greedyTake_nil_head {width curLen : Nat} {c : List Char}
    {rest : List (List Char)}
    (h : (greedyTake width curLen (c :: rest)).1 = []) :
    width < curLen + c.length := by
  unfold greedyTake at h
  split at h
  · simp at h
  · rename_i hcond
    omega

theorem chunkMeasure_cons (c : List Char) (cs : List (List Char)) :
    chunkMeasure (c :: cs) = c.length + 1 + chunkMeasure cs := by
  simp [chunkMeasure]

theorem chunkMeasure_append (a b : List (List Char)) :
    chunkMeasure (a ++ b) = chunkMeasure a + chunkMeasure b := by
  simp [chunkMeasure]

theorem sumLens_nil : sumLens [] = 0 := rfl

theorem hlwSpaceLeft_zero_pos (width : Nat) : 1 ≤ hlwSpaceLeft width 0 := by
  unfold hlwSpaceLeft
  split
  · omega
  · omega

theorem hlwEndIdx_pos {width curLen : Nat} (chunk : List Char)
    (h : 1 ≤ hlwSpaceLeft width curLen) :
    1 ≤ hlwEndIdx width curLen chunk := by
  unfold hlwEndIdx
  split
  · split
    · split
      · omega
      · exact h
    · exact h
  · exact h

theorem handleLongWord_snd (width curLen : Nat) (cur : List (List Char))
    (chunk : List Char) :
    (handleLongWord width curLen cur chunk).2 =
      chunk.drop (hlwEndIdx width curLen chunk) := rfl

theorem handleLongWord_fst (width curLen : Nat) (cur : List (List Char))
    (chunk : List Char) :
    (handleLongWord width curLen cur chunk).1 =
      cur ++ [chunk.take (hlwEndIdx width curLen chunk)] := rfl

/-- One pass of the body of `_wrap_chunks` after the leading-whitespace drop:
run the greedy loop, then the long-word handler when the next chunk does not
fit and is longer than the width.  Returns the current line's chunks and the
remaining chunks. -/
def wrapStep (width : Nat) (chunks : List (List Char)) :
    List (List Char) × List (List Char) :=
  match greedyTake width 0 chunks with
  | (cur, r :: rtl) =>
    if width < r.length then
      ((handleLongWord width (sumLens cur) cur r).1,
        (handleLongWord width (sumLens cur) cur r).2 :: rtl)
    else (cur, r :: rtl)
  | (cur, []) => (cur, [])

theorem wrapStep_measure (width : Nat) {chunks : List (List Char)}
    (h : chunks ≠ []) :
    chunkMeasure (wrapStep width chunks).2 < chunkMeasure chunks := by
  obtain ⟨c0, rest0, rfl⟩ := List.exists_cons_of_ne_nil h
  have hga := greedyTake_append width 0 (c0 :: rest0)
  unfold wrapStep
  rcases hgr : greedyTake width 0 (c0 :: rest0) with ⟨cur, rest⟩
  rw [hgr] at hga
  simp only at hga
  rcases rest with _ | ⟨r, rtl⟩
  · dsimp only
    rw [chunkMeasure_cons]
    simp only [chunkMeasure, List.map_nil, List.sum_nil]
    omega
  · dsimp only
    by_cases hw : width < r.length
    · rw [if_pos hw]
      simp only [handleLongWord_snd]
      rcases cur with _ | ⟨a, cur'⟩
      · simp only [List.nil_append] at hga
        have hrpos : 1 ≤ r.length := by omega
        have hepos : 1 ≤ hlwEndIdx width (sumLens []) r := by
          rw [sumLens_nil]
          exact hlwEndIdx_pos r (hlwSpaceLeft_zero_pos width)
        rw [← hga, chunkMeasure_cons, chunkMeasure_cons, List.length_drop]
        omega
      · rw [← hga, chunkMeasure_append, chunkMeasure_cons, chunkMeasure_cons,
          chunkMeasure_cons, List.length_drop]
        omega
    · rw [if_neg hw]
      rcases cur with _ | ⟨a, cur'⟩
      · exfalso
        simp only [List.nil_append] at hga
        have hh : (greedyTake width 0 (c0 :: rest0)).1 = [] := by
          rw [hgr]
        have := greedyTake_nil_head hh
        have hc0 : c0 = r := by
          have := congrArg (fun l => l.head?) hga
          simpa using this.symm
        rw [hc0] at this
        omega
      · rw [← hga, chunkMeasure_append, chunkMeasure_cons, chunkMeasure_cons]
        omega

theorem wrapLoop_dec (width : Nat) (hasLines : Bool) (c0 : List Char)
    (rest0 : List (List Char)) :
    chunkMeasure (wrapStep width
        (if hasLines && headStripEmpty (c0 :: rest0) then rest0
          else c0 :: rest0)).2 <
      chunkMeasure (c0 :: rest0) := by
  by_cases hd : (hasLines && headStripEmpty (c0 :: rest0)) = true
  · rw [if_pos hd]
    rcases rest0 with _ | ⟨c1, rest1⟩
    · simp [wrapStep, greedyTake, chunkMeasure]
    · exact Nat.lt_trans (wrapStep_measure width (by simp))
        (by simp only [chunkMeasure_cons]; omega)
  · rw [if_neg hd]
    exact wrapStep_measure width (by simp)

/-- The outer loop of `TextWrapper._wrap_chunks` (with `max_lines=None`,
empty indents, `drop_whitespace=True`, `break_long_words=True`): produce
the list of output lines.  `hasLines` records whether a line has already
been emitted (the `lines` test of the leading-whitespace drop). -/
def wrapLoop (width : Nat) (chunks : List (List Char)) (hasLines : Bool) :
    List (List Char) :=
  match chunks with
  | [] => []
  | c0 :: rest0 =>
    let chunks1 := if hasLines && headStripEmpty (c0 :: rest0) then rest0
      else c0 :: rest0
    let p := wrapStep width chunks1
    let cur := dropTrailWS p.1
    if cur.isEmpty then wrapLoop width p.2 hasLines
    else cur.flatten :: wrapLoop width p.2 true
  termination_by chunkMeasure chunks
  decreasing_by
  · exact wrapLoop_dec width hasLines _ _
  · exact wrapLoop_dec width hasLines _ _

/-- `TextWrapper.wrap(text)` with default options: munge whitespace, split
into chunks, and run the wrapping loop.  Returns the list of output lines.
(The positive-width check of `_wrap_chunks` lives in `fill` below.) -/
def wrapLinesL (width : Nat) (text : List Char) : List (List Char) :=
  wrapLoop width (splitChunks (munge text)) false

/-- `TextWrapper.fill(text)` for positive width: `"\n".join(wrap(text))`. -/
def fillPosL (width : Nat) (text : List Char) : List Char :=
  List.intercalate ['\n'] (wrapLinesL width text)

/-- `textwrap.fill(text, width=width)`, raising `ValueError` (modelled as
`Except.error`) when `width <= 0`, as `_wrap_chunks` does. -/
def fill (text : String) (width : Int) : Except String String :=
  if width ≤ 0 then Except.error "invalid width (must be > 0)"
  else Except.ok (String.mk (fillPosL width.toNat text.data))

/-- The result of `rewrap` for positive width, on character lists:
linearize, then fill. -/
def rewrapOkL (width : Nat) (t : List Char) : List Char :=
  fillPosL width (linearizeL t)

/-- `rewrap(multiline, width=70, **kwargs)` from `util.py` (with no extra
`TextWrap` keyword arguments): linearize the string and wrap the result. -/
def rewrap (multiline : String) (width : Int := 70) : Except String String :=
  fill (linearize multiline) width

theorem rewrap_pos (multiline : String) (width : Int) (h : 0 < width) :
    rewrap multiline width =
      Except.ok (String.mk (rewrapOkL width.toNat multiline.data)) := by
  unfold rewrap fill rewrapOkL linearize
  rw [if_neg (by omega)]

/-- `str.ljust`: pad with spaces on the right to the given width
(no change when the string is already at least that long, including for
negative widths). -/
def ljust (s : String) (w : Int) : String :=
  s ++ String.mk (List.replicate (w - s.length).toNat ' ')

/-- `"\n" + " " * key_column_width` substituted for every newline
(`str.replace` on the single-character needle `"\n"`). -/
def replaceNLIndent (pad : List Char) : List Char → List Char
  | [] => []
  | c :: r =>
    if c = '\n' then '\n' :: (pad ++ replaceNLIndent pad r)
    else c :: replaceNLIndent pad r

/-- `KeyValueTable` from `util.py`: `key_column_width`, optional
`total_width`, and the class-level `separator = ": "`. -/
structure KeyValueTable where
  key_column_width : Int
  total_width : Option Int := none

def KeyValueTable.separator : String := ": "

/-- `KeyValueTable.print_row(key, value)`.  Returns the warning (if any)
emitted by `warn(...)`, and either the string passed raw to `echo` or the
`ValueError` propagated from `rewrap`.  The warning is emitted before the
wrap, so it survives even when `rewrap` raises. -/
def KeyValueTable.printRow (t : KeyValueTable) (key value : String) :
    Option String × Except String String :=
  let keyCell := key ++ KeyValueTable.separator
  let warning :=
    if t.key_column_width < (keyCell.length : Int) then
      some ("key_column_width should be at least " ++ toString keyCell.length)
    else none
  match t.total_width with
  | none => (warning, Except.ok (ljust keyCell t.key_column_width ++ value))
  | some tw =>
    match rewrap value (tw - t.key_column_width) with
    | Except.error e => (warning, Except.error e)
    | Except.ok wrapped =>
      (warning, Except.ok (ljust keyCell t.key_column_width ++
        String.mk (replaceNLIndent
          (List.replicate t.key_column_width.toNat ' ') wrapped.data)))

set_option maxRecDepth 8000

theorem printRow_fst (t : KeyValueTable) (key value : String) :
    (t.printRow key value).1 =
      if t.key_column_width < (((key ++ KeyValueTable.separator).length : Nat) : Int)
      then some ("key_column_width should be at least " ++
        toString (key ++ KeyValueTable.separator).length)
      else none := by
  obtain ⟨kcw, tw⟩ := t
  unfold KeyValueTable.printRow
  rcases tw with _ | tw
  · rfl
  · dsimp only
    rcases rewrap value (tw - kcw) with e | w
    · rfl
    · rfl

theorem printRow_none_snd (kcw : Int) (key value : String) :
    (KeyValueTable.printRow ⟨kcw, none⟩ key value).2 =
      Except.ok (ljust (key ++ KeyValueTable.separator) kcw ++ value) := rfl

theorem printRow_some_snd (kcw tw : Int) (key value : String)
    (h : 0 < tw - kcw) :
    (KeyValueTable.printRow ⟨kcw, some tw⟩ key value).2 =
      Except.ok (ljust (key ++ KeyValueTable.separator) kcw ++
        String.mk (replaceNLIndent (List.replicate kcw.toNat ' ')
          (rewrapOkL (tw - kcw).toNat value.data))) := by
  unfold KeyValueTable.printRow
  dsimp only
  rw [rewrap_pos value (tw - kcw) h]

theorem printRow_small_width_snd (kcw tw : Int) (key value : String)
    (h : tw - kcw ≤ 0) :
    (KeyValueTable.printRow ⟨kcw, some tw⟩ key value).2 =
      Except.error "invalid width (must be > 0)" := by
  unfold KeyValueTable.printRow
  have he : rewrap value (tw - kcw) =
      Except.error "invalid width (must be > 0)" := by
    unfold rewrap fill
    rw [if_pos h]
  dsimp only
  rw [he]

/-- C7: for every input string, `linearize` yields a string with no two
consecutive whitespace characters and no leading or trailing whitespace
(every maximal whitespace run having been collapsed to one space and the
ends trimmed); concretely `linearize "  a   b\nc  " = "a b c"` and
`linearize "" = ""`. -/
theorem linearize_normalized :
    (∀ s : String, noDoubleWS (linearize s).data = true ∧
      (∀ c rest, (linearize s).data = c :: rest → isPySpace c = false) ∧
      (∀ init c, (linearize s).data = init ++ [c] → isPySpace c = false)) ∧
    linearize "  a   b\nc  " = "a b c" ∧ linearize "" = "" := by
  refine ⟨fun s => ⟨?_, ?_, ?_⟩, by decide, rfl⟩
  · exact noDoubleWS_linearizeL s.data
  · intro c rest h
    exact stripL_head h
  · intro init c h
    exact stripL_getLast h

/-- C8: with `total_width` absent, `print_row` leaves the value unmodified
and emits the key cell right-padded to `key_column_width` followed by the
value; concretely `KeyValueTable(key_column_width=10).print_row("Name",
"Alice")` writes the single raw line `"Name:     Alice"`. -/
theorem printRow_no_total_width :
    (∀ (kcw : Int) (key value : String),
      (KeyValueTable.printRow ⟨kcw, none⟩ key value).2 =
        Except.ok (ljust (key ++ KeyValueTable.separator) kcw ++ value)) ∧
    KeyValueTable.printRow ⟨10, none⟩ "Name" "Alice" =
      (none, Except.ok "Name:     Alice") :=
  ⟨fun kcw key value => printRow_none_snd kcw key value, rfl⟩

/-- C4 counterexample: `rewrap` without an explicit width does not behave
as width 75 — a single 72-character word is broken at the actual default
width (70) but left whole at width 75. -/
theorem rewrap_default_ne_width75 :
    rewrap (String.mk (List.replicate 72 'a')) ≠
      rewrap (String.mk (List.replicate 72 'a')) 75 := by
  simp +decide [rewrap, fill, rewrapOkL, fillPosL, wrapLinesL, wrapLoop, wrapStep,
    greedyTake, handleLongWord, hlwEndIdx, hlwSpaceLeft, rfindHyphen, rfindHyphenAux,
    splitChunks, chunksAux, wordScan, munge, expandTabsAux, linearize, linearizeL,
    collapseWS, stripL, dropTrailWS, headStripEmpty, stripEmpty, sumLens]

/-- C4 (amended): when `rewrap` is called without an explicit width
argument it behaves as if `width = 70` (the declared default), for every
string. -/
theorem rewrap_default_eq_width70 (s : String) : rewrap s = rewrap s 70 := rfl

/-- C3 counterexample: with `total_width < key_column_width` and a
non-empty value, `print_row` does crash — the negative wrap width makes
`textwrap.fill` raise `ValueError` instead of yielding a degenerate
result. -/
theorem printRow_pathological_raises :
    KeyValueTable.printRow ⟨10, some 5⟩ "K" "v" =
      (none, Except.error "invalid width (must be > 0)") := rfl

/-- C3 (amended): for every table configured with
`total_width < key_column_width` and every key and value, `print_row`
raises the `ValueError` of the underlying `textwrap.fill` (it does not
produce a row). -/
theorem printRow_pathological_always_raises (kcw tw : Int)
    (key value : String) (h : tw < kcw) :
    (KeyValueTable.printRow ⟨kcw, some tw⟩ key value).2 =
      Except.error "invalid width (must be > 0)" :=
  printRow_small_width_snd kcw tw key value (by omega)

theorem printRow_pathological_always_raises_witness :
    (5 : Int) < 10 ∧
      (KeyValueTable.printRow ⟨10, some 5⟩ "Key" "some value").2 =
        Except.error "invalid width (must be > 0)" :=
  ⟨by decide, printRow_pathological_always_raises 10 5 "Key" "some value"
    (by decide)⟩

/-- C9 counterexample: on a table with `total_width < key_column_width`, a
row whose key cell exceeds `key_column_width` emits the warning but then
raises `ValueError` instead of still producing the output row. -/
theorem printRow_warning_then_raises :
    KeyValueTable.printRow ⟨1, some 0⟩ "ab" "v" =
      (some "key_column_width should be at least 4",
        Except.error "invalid width (must be > 0)") := rfl

/-- C9 (amended): `print_row` emits a warning iff the key cell
`key + ": "` is longer than `key_column_width`; provided `total_width` is
absent or exceeds `key_column_width`, it still produces the output row,
with the key cell intact (not truncated) at its start. -/
theorem printRow_warning_iff (t : KeyValueTable) (key value : String) :
    ((t.printRow key value).1.isSome =
      decide (t.key_column_width <
        (((key ++ KeyValueTable.separator).length : Nat) : Int))) ∧
    (t.total_width = none ∨
        (∃ tw, t.total_width = some tw ∧ t.key_column_width < tw) →
      ∃ rest, (t.printRow key value).2 =
        Except.ok ((key ++ KeyValueTable.separator) ++ rest)) := by
  constructor
  · rw [printRow_fst]
    by_cases h : t.key_column_width <
        (((key ++ KeyValueTable.separator).length : Nat) : Int)
    · rw [if_pos h, Option.isSome_some]
      exact (decide_eq_true h).symm
    · rw [if_neg h, Option.isSome_none]
      exact (decide_eq_false h).symm
  · obtain ⟨kcw, tw0⟩ := t
    rintro (hnone | ⟨tw, hsome, hlt⟩)
    · dsimp only at hnone
      subst hnone
      refine ⟨String.mk (List.replicate (kcw - (((key ++
        KeyValueTable.separator).length : Nat) : Int)).toNat ' ') ++ value, ?_⟩
      rw [printRow_none_snd, ← String.append_assoc]
      rfl
    · dsimp only at hsome hlt
      subst hsome
      refine ⟨String.mk (List.replicate (kcw - (((key ++
        KeyValueTable.separator).length : Nat) : Int)).toNat ' ') ++
          String.mk (replaceNLIndent (List.replicate kcw.toNat ' ')
            (rewrapOkL (tw - kcw).toNat value.data)), ?_⟩
      rw [printRow_some_snd kcw tw key value (by omega), ← String.append_assoc]
      rfl

theorem printRow_warning_iff_witness :
    ((KeyValueTable.printRow ⟨3, some 20⟩ "Tags" "red green").1.isSome =
      decide ((3 : Int) <
        (((("Tags" ++ KeyValueTable.separator).length : Nat)) : Int))) ∧
    ((⟨3, some 20⟩ : KeyValueTable).total_width = none ∨
        (∃ tw, (⟨3, some 20⟩ : KeyValueTable).total_width = some tw ∧
          (3 : Int) < tw) →
      ∃ rest, (KeyValueTable.printRow ⟨3, some 20⟩ "Tags" "red green").2 =
        Except.ok (("Tags" ++ KeyValueTable.separator) ++ rest)) :=
  printRow_warning_iff ⟨3, some 20⟩ "Tags" "red green"

/-- C1 counterexample: even with `total_width` set (and satisfying the
data-model invariant `total_width >= key_column_width`), `print_row` does
not always emit the wrapped row — with `total_width = key_column_width`
the wrap width is zero and `textwrap.fill` raises `ValueError`. -/
theorem printRow_total_width_eq_raises :
    (KeyValueTable.printRow ⟨10, some 10⟩ "Name" "Alice").2 =
      Except.error "invalid width (must be > 0)" := rfl

/-- C1 (amended): for every table with `total_width` set and
`total_width - key_column_width > 0`, and every key and value, `print_row`
wraps the value with the Rewrapper at width
`total_width - key_column_width`, prefixes `key_column_width` spaces after
every newline of the wrapped result, and emits the padded key cell
concatenated with this value cell as the single raw write; concretely the
spec case `total_width=20, key_column_width=10`,
`print_row("Tags", "red green blue yellow")`. -/
theorem printRow_total_width_wraps :
    (∀ (kcw tw : Int) (key value : String), 0 < tw - kcw →
      (KeyValueTable.printRow ⟨kcw, some tw⟩ key value).2 =
        Except.ok (ljust (key ++ KeyValueTable.separator) kcw ++
          String.mk (replaceNLIndent (List.replicate kcw.toNat ' ')
            (rewrapOkL (tw - kcw).toNat value.data)))) ∧
    (KeyValueTable.printRow ⟨10, some 20⟩ "Tags" "red green blue yellow").2 =
      Except.ok "Tags:     red green\n          blue\n          yellow" := by
  constructor
  · exact fun kcw tw key value h => printRow_some_snd kcw tw key value h
  · rw [printRow_some_snd 10 20 "Tags" "red green blue yellow" (by decide)]
    simp +decide [rewrapOkL, fillPosL, wrapLinesL, wrapLoop, wrapStep,
      greedyTake, handleLongWord, hlwEndIdx, hlwSpaceLeft, rfindHyphen,
      rfindHyphenAux, splitChunks, chunksAux, wordScan, munge, expandTabsAux,
      linearizeL, collapseWS, stripL, dropTrailWS, headStripEmpty, stripEmpty,
      sumLens, replaceNLIndent, ljust]

theorem printRow_total_width_wraps_witness :
    (0 : Int) < 20 - 10 ∧
      (KeyValueTable.printRow ⟨10, some 20⟩ "Size" "tiny").2 =
        Except.ok (ljust ("Size" ++ KeyValueTable.separator) 10 ++
          String.mk (replaceNLIndent (List.replicate (10 : Int).toNat ' ')
            (rewrapOkL ((20 : Int) - 10).toNat "tiny".data))) :=
  ⟨by decide, printRow_total_width_wraps.1 10 20 "Size" "tiny" (by decide)⟩

theorem linearize_normalized_witness :
    noDoubleWS (linearize "x  y").data = true ∧ isPySpace 'x' = false :=
  ⟨(linearize_normalized.1 "x  y").1,
    (linearize_normalized.1 "x  y").2.1 'x' " y".data (by decide)⟩

theorem expandTabsAux_id {t : List Char} (h : ∀ c ∈ t, c ≠ '\t') :
    ∀ col, expandTabsAux col t = t := by
  induction t with
  | nil => intro col; rfl
  | cons c r ih =>
    intro col
    have hc : c ≠ '\t' := h c (List.mem_cons_self c r)
    have hr : ∀ d ∈ r, d ≠ '\t' := fun d hd => h d (List.mem_cons_of_mem c hd)
    unfold expandTabsAux
    rw [if_neg hc]
    split
    · rw [ih hr]
    · rw [ih hr]

theorem munge_id {t : List Char}
    (h : ∀ c ∈ t, c = ' ' ∨ isWrapSpace c = false) : munge t = t := by
  unfold munge
  have htab : ∀ c ∈ t, c ≠ '\t' := by
    intro c hc he
    rcases h c hc with h1 | h1
    · rw [he] at h1; exact absurd h1 (by decide)
    · rw [he] at h1; exact absurd h1 (by decide)
  rw [expandTabsAux_id htab]
  conv_rhs => rw [← List.map_id t]
  apply List.map_congr_left
  intro c hc
  rcases h c hc with h1 | h1
  · rw [h1]; rfl
  · simp [h1]

theorem munge_linearizeL (t : List Char) :
    munge (linearizeL t) = linearizeL t := by
  apply munge_id
  intro c hc
  rcases linearizeL_chars hc with h | h
  · exact Or.inl h
  · refine Or.inr ?_
    cases hw : isWrapSpace c
    · rfl
    · exact absurd (isWrapSpace_isPySpace hw) (by simp [h])

theorem chunksAux_flatten (prev : Option Char) (t : List Char) :
    (chunksAux prev t).flatten = t := by
  induction prev, t using chunksAux.induct with
  | case1 prev => rw [chunksAux.eq_def]; simp
  | case2 prev c rest hw run ih =>
    rw [chunksAux.eq_def]
    dsimp only
    rw [dif_pos hw, List.flatten_cons, ih, List.takeWhile_append_dropWhile]
  | case3 prev c rest hnw hcond ih =>
    rw [chunksAux.eq_def]
    dsimp only
    rw [dif_neg hnw, if_pos hcond, List.flatten_cons, ih,
      List.takeWhile_append_dropWhile]
  | case4 prev c rest hnw s hcond ih =>
    rw [chunksAux.eq_def]
    dsimp only
    rw [dif_neg hnw, if_neg hcond, List.flatten_cons, ih]
    have := wordScan_flatten [c] rest
    simpa using this

theorem chunksAux_ne_nil (prev : Option Char) (t : List Char) :
    ∀ l ∈ chunksAux prev t, l ≠ [] := by
  induction prev, t using chunksAux.induct with
  | case1 prev => rw [chunksAux.eq_def]; simp
  | case2 prev c rest hw run ih =>
    rw [chunksAux.eq_def]
    dsimp only
    rw [dif_pos hw]
    intro l hl
    rcases List.mem_cons.mp hl with rfl | hl
    · rw [List.takeWhile_cons_of_pos hw]
      simp
    · exact ih l hl
  | case3 prev c rest hnw hcond ih =>
    rw [chunksAux.eq_def]
    dsimp only
    rw [dif_neg hnw, if_pos hcond]
    intro l hl
    rcases List.mem_cons.mp hl with rfl | hl
    · have hc : c = '-' := by
        simp only [Bool.and_eq_true, decide_eq_true_eq] at hcond
        exact hcond.1.2
      rw [List.takeWhile_cons_of_pos (by simp [hc])]
      simp
    · exact ih l hl
  | case4 prev c rest hnw s hcond ih =>
    rw [chunksAux.eq_def]
    dsimp only
    rw [dif_neg hnw, if_neg hcond]
    intro l hl
    rcases List.mem_cons.mp hl with rfl | hl
    · exact wordScan_chunk_ne_nil (by simp) rest
    · exact ih l hl

theorem splitChunks_eq (t : List Char) : splitChunks t = chunksAux none t := by
  unfold splitChunks
  apply List.filter_eq_self.mpr
  intro l hl
  have := chunksAux_ne_nil none t l hl
  simp [List.isEmpty_iff, this]

theorem splitChunks_flatten (t : List Char) : (splitChunks t).flatten = t := by
  rw [splitChunks_eq]
  exact chunksAux_flatten none t

theorem sumLens_cons (c : List Char) (cs : List (List Char)) :
    sumLens (c :: cs) = c.length + sumLens cs := by
  simp [sumLens]

theorem sumLens_flatten (cs : List (List Char)) :
    sumLens cs = cs.flatten.length := by
  induction cs with
  | nil => rfl
  | cons c rest ih => simp [sumLens_cons, ih]

theorem greedyTake_all {width curLen : Nat} {cs : List (List Char)}
    (h : curLen + sumLens cs ≤ width) :
    greedyTake width curLen cs = (cs, []) := by
  induction cs generalizing curLen with
  | nil => rfl
  | cons c rest ih =>
    rw [sumLens_cons] at h
    unfold greedyTake
    rw [if_pos (by omega)]
    rw [ih (by omega)]

theorem wrapStep_all {width : Nat} {cs : List (List Char)}
    (h : sumLens cs ≤ width) : wrapStep width cs = (cs, []) := by
  unfold wrapStep
  rw [greedyTake_all (by omega)]

theorem dropTrailWS_eq {cs : List (List Char)}
    (h : ∀ init l, cs = init ++ [l] → stripEmpty l = false) :
    dropTrailWS cs = cs := by
  rcases List.eq_nil_or_concat cs with rfl | ⟨init, l, rfl⟩
  · rfl
  · rw [List.concat_eq_append]
    unfold dropTrailWS
    rw [List.getLast?_concat]
    dsimp only
    rw [h init l (List.concat_eq_append init l)]
    simp

theorem chunksAux_nil (prev : Option Char) : chunksAux prev [] = [] := by
  rw [chunksAux.eq_def]

theorem splitChunks_nil : splitChunks [] = [] := by
  rw [splitChunks_eq, chunksAux_nil]

theorem wrapLoop_nil (width : Nat) (b : Bool) : wrapLoop width [] b = [] := by
  rw [wrapLoop.eq_def]

theorem wrapLoop_single {width : Nat} {cs : List (List Char)} (hne : cs ≠ [])
    (hsum : sumLens cs ≤ width) (hdrop : dropTrailWS cs = cs) :
    wrapLoop width cs false = [cs.flatten] := by
  obtain ⟨c0, rest0, rfl⟩ := List.exists_cons_of_ne_nil hne
  rw [wrapLoop.eq_def]
  dsimp only
  rw [Bool.false_and]
  rw [if_neg (show ¬(false = true) by simp)]
  rw [wrapStep_all hsum]
  dsimp only
  rw [hdrop]
  rw [if_neg (show ¬((c0 :: rest0).isEmpty = true) by simp), wrapLoop_nil]

theorem splitChunks_linearize_dropTrail (s' : List Char) :
    dropTrailWS (splitChunks (linearizeL s')) = splitChunks (linearizeL s') := by
  apply dropTrailWS_eq
  intro init l hil
  have hlne : l ≠ [] := by
    apply chunksAux_ne_nil none (linearizeL s') l
    rw [← splitChunks_eq, hil]
    simp
  obtain ⟨l', cl, hl'⟩ := (List.eq_nil_or_concat l).resolve_left hlne
  rw [List.concat_eq_append] at hl'
  have hshape : linearizeL s' = (init.flatten ++ l') ++ [cl] := by
    conv_lhs => rw [← splitChunks_flatten (linearizeL s'), hil]
    rw [List.flatten_append, hl']
    simp
  have hcl : isPySpace cl = false := stripL_getLast hshape
  cases hse : stripEmpty l with
  | false => rfl
  | true =>
    exfalso
    have hmem : cl ∈ l := by
      rw [hl']
      simp
    have : isPySpace cl = true := by
      unfold stripEmpty at hse
      exact List.all_eq_true.mp hse cl hmem
    rw [hcl] at this
    exact Bool.noConfusion this

theorem fillPos_linearize (s' : List Char) (width : Nat)
    (hlen : (linearizeL s').length ≤ width) :
    fillPosL width (linearizeL s') = linearizeL s' := by
  unfold fillPosL wrapLinesL
  rw [munge_linearizeL]
  by_cases hne : linearizeL s' = []
  · rw [hne, splitChunks_nil, wrapLoop_nil]
    rfl
  · have hcs : splitChunks (linearizeL s') ≠ [] := by
      intro h0
      apply hne
      rw [← splitChunks_flatten (linearizeL s'), h0]
      rfl
    have hsum : sumLens (splitChunks (linearizeL s')) ≤ width := by
      rw [sumLens_flatten, splitChunks_flatten]
      exact hlen
    rw [wrapLoop_single hcs hsum (splitChunks_linearize_dropTrail s')]
    rw [splitChunks_flatten]
    simp [List.intercalate]

/-- C10: for every string `s` and every width `> 0`, when `linearize s`
already fits within the width, `rewrap` is the identity on it: the result
is exactly `linearize s`, with no newline inserted. -/
theorem rewrap_identity_when_fits (s : String) (w : Int) (hw : 0 < w)
    (hlen : (linearize s).length ≤ w.toNat) :
    rewrap s w = Except.ok (linearize s) := by
  rw [rewrap_pos s w hw]
  unfold linearize
  exact congrArg (fun l => Except.ok (String.mk l))
    (fillPos_linearize s.data w.toNat hlen)

theorem rewrap_identity_when_fits_witness :
    (0 : Int) < 70 ∧ (linearize "hello world").length ≤ (70 : Int).toNat ∧
      rewrap "hello world" 70 = Except.ok (linearize "hello world") :=
  ⟨by decide, by decide,
    rewrap_identity_when_fits "hello world" 70 (by decide) (by decide)⟩

theorem rfindHyphenAux_lt {l : List Char} :
    ∀ {k : Nat} {acc : Option Nat},
      (∀ j, acc = some j → j < k) →
      ∀ {i}, rfindHyphenAux l k acc = some i → i < k + l.length := by
  induction l with
  | nil =>
    intro k acc hacc i h
    have := hacc i h
    simpa using Nat.lt_of_lt_of_le this (Nat.le_refl k)
  | cons c r ih =>
    intro k acc hacc i h
    unfold rfindHyphenAux at h
    have hbound : ∀ j, (if c = '-' then some k else acc) = some j → j < k + 1 := by
      intro j hj
      split at hj
      · cases hj; omega
      · exact Nat.lt_succ_of_lt (hacc j hj)
    have := ih hbound h
    simp only [List.length_cons]
    omega

theorem rfindHyphen_lt {l : List Char} {i : Nat}
    (h : rfindHyphen l = some i) : i < l.length := by
  have := @rfindHyphenAux_lt l 0 none (by intro j hj; cases hj) i h
  simpa using this

theorem hlwEndIdx_le (width curLen : Nat) (chunk : List Char) :
    hlwEndIdx width curLen chunk ≤ hlwSpaceLeft width curLen := by
  unfold hlwEndIdx
  split
  · rename_i hsl
    split
    · rename_i i heq
      split
      · have h1 := rfindHyphen_lt heq
        rw [List.length_take] at h1
        omega
      · exact Nat.le_refl _
    · exact Nat.le_refl _
  · exact Nat.le_refl _

theorem hlwSpaceLeft_eq {width curLen : Nat} (hw : 1 ≤ width) :
    hlwSpaceLeft width curLen = width - curLen := by
  unfold hlwSpaceLeft
  rw [if_neg (by omega)]

theorem greedyTake_sum {width : Nat} (cs : List (List Char)) :
    ∀ {curLen : Nat}, curLen ≤ width →
      curLen + sumLens (greedyTake width curLen cs).1 ≤ width := by
  induction cs with
  | nil =>
    intro curLen h
    simpa [greedyTake, sumLens] using h
  | cons c rest ih =>
    intro curLen h
    unfold greedyTake
    split
    · rename_i hc
      have := @ih (curLen + c.length) hc
      simp only [sumLens_cons]
      omega
    · simpa [sumLens] using h

theorem sumLens_append (a b : List (List Char)) :
    sumLens (a ++ b) = sumLens a + sumLens b := by
  simp [sumLens]

theorem sumLens_dropLast (l : List (List Char)) :
    sumLens l.dropLast ≤ sumLens l := by
  induction l with
  | nil => exact Nat.le_refl _
  | cons c r ih =>
    cases r with
    | nil => simp [sumLens]
    | cons d s =>
      rw [List.dropLast_cons₂, sumLens_cons, sumLens_cons]
      exact Nat.add_le_add_left ih _

theorem sumLens_dropTrailWS (cur : List (List Char)) :
    sumLens (dropTrailWS cur) ≤ sumLens cur := by
  unfold dropTrailWS
  split
  · split
    · exact sumLens_dropLast cur
    · exact Nat.le_refl _
  · exact Nat.le_refl _

theorem wrapStep_fst_sum {width : Nat} (hw : 1 ≤ width)
    (cs : List (List Char)) : sumLens (wrapStep width cs).1 ≤ width := by
  unfold wrapStep
  rcases hgr : greedyTake width 0 cs with ⟨cur, rest⟩
  have hsum : sumLens cur ≤ width := by
    have := @greedyTake_sum width cs 0 (by omega)
    rw [hgr] at this
    simpa using this
  rcases rest with _ | ⟨r, rtl⟩
  · exact hsum
  · dsimp only
    split
    · rw [handleLongWord_fst, sumLens_append]
      have he := hlwEndIdx_le width (sumLens cur) r
      rw [hlwSpaceLeft_eq hw] at he
      have ht : (r.take (hlwEndIdx width (sumLens cur) r)).length ≤
          hlwEndIdx width (sumLens cur) r := by
        rw [List.length_take]
        omega
      simp only [sumLens_cons, sumLens_nil]
      omega
    · exact hsum

theorem wrapLoop_cons (width : Nat) (c0 : List Char) (rest0 : List (List Char))
    (b : Bool) :
    wrapLoop width (c0 :: rest0) b =
      if (dropTrailWS (wrapStep width (if b && headStripEmpty (c0 :: rest0)
            then rest0 else c0 :: rest0)).1).isEmpty then
        wrapLoop width (wrapStep width (if b && headStripEmpty (c0 :: rest0)
          then rest0 else c0 :: rest0)).2 b
      else
        (dropTrailWS (wrapStep width (if b && headStripEmpty (c0 :: rest0)
            then rest0 else c0 :: rest0)).1).flatten ::
          wrapLoop width (wrapStep width (if b && headStripEmpty (c0 :: rest0)
            then rest0 else c0 :: rest0)).2 true := by
  rw [wrapLoop.eq_def]

theorem wrapLoop_line_length {width : Nat} (hw : 1 ≤ width) :
    ∀ (n : Nat) (chunks : List (List Char)) (b : Bool),
      chunkMeasure chunks ≤ n →
      ∀ line ∈ wrapLoop width chunks b, line.length ≤ width := by
  intro n
  induction n with
  | zero =>
    intro chunks b hm line hline
    have hnil : chunks = [] := by
      cases chunks with
      | nil => rfl
      | cons c r => rw [chunkMeasure_cons] at hm; omega
    subst hnil
    rw [wrapLoop_nil] at hline
    cases hline
  | succ n ih =>
    intro chunks b hm line hline
    cases chunks with
    | nil =>
      rw [wrapLoop_nil] at hline
      cases hline
    | cons c0 rest0 =>
      rw [wrapLoop_cons] at hline
      set cs1 := if b && headStripEmpty (c0 :: rest0) then rest0
        else c0 :: rest0 with hc1
      have hm2 : chunkMeasure (wrapStep width cs1).2 ≤ n := by
        have hdec := wrapLoop_dec width b c0 rest0
        rw [← hc1] at hdec
        omega
      split at hline
      · exact ih _ b hm2 line hline
      · rcases List.mem_cons.mp hline with rfl | hline
        · rw [← sumLens_flatten]
          exact Nat.le_trans (sumLens_dropTrailWS _) (wrapStep_fst_sum hw _)
        · exact ih _ true hm2 line hline

/-- `str.split("\n")`-style decomposition of a character list into lines. -/
def splitNL : List Char → List (List Char)
  | [] => [[]]
  | c :: r =>
    if c = '\n' then [] :: splitNL r
    else
      match splitNL r with
      | [] => [[c]]
      | l :: ls => (c :: l) :: ls

theorem splitNL_ne_nil (t : List Char) : splitNL t ≠ [] := by
  induction t with
  | nil => simp [splitNL]
  | cons c r ih =>
    unfold splitNL
    split
    · simp
    · split
      · simp
      · simp

theorem splitNL_cons_ne {c : Char} (h : ¬c = '\n') (u : List Char) :
    splitNL (c :: u) = (c :: (splitNL u).headD []) :: (splitNL u).tail := by
  rcases hs : splitNL u with _ | ⟨x, xs⟩
  · exact absurd hs (splitNL_ne_nil u)
  · rw [show splitNL (c :: u) = if c = '\n' then [] :: splitNL u else
      (match splitNL u with | [] => [[c]] | l :: ls => (c :: l) :: ls) from rfl]
    rw [if_neg h, hs]
    simp

theorem splitNL_cons_nl (u : List Char) :
    splitNL ('\n' :: u) = [] :: splitNL u := by
  rw [show splitNL ('\n' :: u) = if '\n' = '\n' then [] :: splitNL u else
      (match splitNL u with | [] => [['\n']] | l :: ls => ('\n' :: l) :: ls)
    from rfl]
  rw [if_pos rfl]

theorem splitNL_append_nonl {l : List Char} (hn : '\n' ∉ l) (r : List Char) :
    splitNL (l ++ r) =
      (l ++ (splitNL r).headD []) :: (splitNL r).tail := by
  induction l with
  | nil =>
    rcases hs : splitNL r with _ | ⟨x, xs⟩
    · exact absurd hs (splitNL_ne_nil r)
    · simp [hs]
  | cons c cl ih =>
    have hc : ¬c = '\n' := by
      intro h0
      exact hn (by rw [h0]; exact List.mem_cons_self _ _)
    have hcl : '\n' ∉ cl := fun h0 => hn (List.mem_cons_of_mem _ h0)
    rw [List.cons_append, splitNL_cons_ne hc, ih hcl]
    simp

theorem splitNL_intercalate (ls : List (List Char)) (hne : ls ≠ [])
    (hnl : ∀ l ∈ ls, '\n' ∉ l) :
    splitNL (List.intercalate ['\n'] ls) = ls := by
  induction ls with
  | nil => exact absurd rfl hne
  | cons l rest ih =>
    cases rest with
    | nil =>
      rw [show List.intercalate ['\n'] [l] = l by simp [List.intercalate]]
      rw [show (l : List Char) = l ++ [] by simp]
      rw [splitNL_append_nonl
        (by simpa using hnl l (List.mem_cons_self _ _)) []]
      simp [splitNL]
    | cons m rest' =>
      have hint : List.intercalate ['\n'] (l :: m :: rest') =
          l ++ '\n' :: List.intercalate ['\n'] (m :: rest') := by
        simp [List.intercalate, List.intersperse]
      rw [hint]
      rw [splitNL_append_nonl (hnl l (List.mem_cons_self _ _))]
      rw [splitNL_cons_nl]
      rw [ih (by simp) (fun x hx => hnl x (List.mem_cons_of_mem _ hx))]
      simp

theorem munge_no_nl (t : List Char) : '\n' ∉ munge t := by
  unfold munge
  intro hmem
  rcases List.mem_map.mp hmem with ⟨d, _, hd⟩
  by_cases hw : isWrapSpace d = true
  · rw [if_pos hw] at hd
    exact absurd hd (by decide)
  · rw [if_neg hw] at hd
    rw [hd] at hw
    exact hw (by decide)

theorem wrapStep_flatten (width : Nat) (cs : List (List Char)) :
    (wrapStep width cs).1.flatten ++ (wrapStep width cs).2.flatten =
      cs.flatten := by
  unfold wrapStep
  have hga := greedyTake_append width 0 cs
  rcases hgr : greedyTake width 0 cs with ⟨cur, rest⟩
  rw [hgr] at hga
  simp only at hga
  rcases rest with _ | ⟨r, rtl⟩
  · dsimp only
    rw [← hga]
    simp
  · dsimp only
    split
    · rw [handleLongWord_fst, handleLongWord_snd, ← hga]
      simp only [List.flatten_append, List.flatten_cons, List.flatten_nil,
        List.append_nil, List.append_assoc]
      rw [← List.append_assoc (List.take (hlwEndIdx width (sumLens cur) r) r),
        List.take_append_drop]
    · rw [← hga]
      simp

theorem wrapLoop_chars {width : Nat} :
    ∀ (n : Nat) (chunks : List (List Char)) (b : Bool),
      chunkMeasure chunks ≤ n →
      ∀ line ∈ wrapLoop width chunks b, ∀ c ∈ line, c ∈ chunks.flatten := by
  intro n
  induction n with
  | zero =>
    intro chunks b hm line hline
    have hnil : chunks = [] := by
      cases chunks with
      | nil => rfl
      | cons c r => rw [chunkMeasure_cons] at hm; omega
    subst hnil
    rw [wrapLoop_nil] at hline
    cases hline
  | succ n ih =>
    intro chunks b hm line hline c hc
    cases chunks with
    | nil =>
      rw [wrapLoop_nil] at hline
      cases hline
    | cons c0 rest0 =>
      rw [wrapLoop_cons] at hline
      set cs1 := if b && headStripEmpty (c0 :: rest0) then rest0
        else c0 :: rest0 with hc1
      have hm2 : chunkMeasure (wrapStep width cs1).2 ≤ n := by
        have hdec := wrapLoop_dec width b c0 rest0
        rw [← hc1] at hdec
        omega
      have hsub : cs1.flatten.Sublist (c0 :: rest0).flatten := by
        rw [hc1]
        split
        · simp only [List.flatten_cons]
          exact List.sublist_append_right _ _
        · exact List.Sublist.refl _
      have hstep : c ∈ (wrapStep width cs1).1.flatten ∨
          c ∈ (wrapStep width cs1).2.flatten → c ∈ (c0 :: rest0).flatten := by
        intro hor
        apply hsub.mem
        rw [← wrapStep_flatten width cs1]
        rcases hor with h1 | h1
        · exact List.mem_append_left _ h1
        · exact List.mem_append_right _ h1
      split at hline
      · exact hstep (Or.inr (ih _ b hm2 line hline c hc))
      · rcases List.mem_cons.mp hline with rfl | hline
        · apply hstep
          left
          rcases List.mem_flatten.mp hc with ⟨l, hl, hcl⟩
          have hl2 : l ∈ (wrapStep width cs1).1 := by
            revert hl
            unfold dropTrailWS
            split
            · split
              · intro hl
                exact (List.dropLast_sublist _).mem hl
              · exact id
            · exact id
          exact List.mem_flatten.mpr ⟨l, hl2, hcl⟩
        · exact hstep (Or.inr (ih _ true hm2 line hline c hc))

theorem fillPos_line_length {width : Nat} (hw : 1 ≤ width) (t : List Char) :
    ∀ line ∈ splitNL (fillPosL width t), line.length ≤ width := by
  intro line hline
  unfold fillPosL at hline
  by_cases hls : wrapLinesL width t = []
  · rw [hls] at hline
    rw [show List.intercalate ['\n'] ([] : List (List Char)) = [] by
      simp [List.intercalate]] at hline
    simp only [splitNL, List.mem_singleton] at hline
    subst hline
    simp
  · rw [splitNL_intercalate _ hls ?_] at hline
    · exact wrapLoop_line_length hw (chunkMeasure _) _ false (Nat.le_refl _)
        line hline
    · intro l hl hc
      unfold wrapLinesL at hl
      have := @wrapLoop_chars width (chunkMeasure _) _ false
        (Nat.le_refl _) l hl '\n' hc
      rw [splitChunks_flatten] at this
      exact munge_no_nl t this

/-- C6: for every string `s` and every width `> 0`, every line of
`rewrap s width` has length at most the width, except possibly a line
consisting of a single overlong word — in fact (with the default
`break_long_words=True`) the first disjunct always holds. -/
theorem rewrap_line_widths (s : String) (w : Int) (hw : 0 < w) :
    ∀ out, rewrap s w = Except.ok out →
      ∀ line ∈ splitNL out.data,
        line.length ≤ w.toNat ∨
          (line.all (fun c => !isWrapSpace c) = true ∧
            w.toNat < line.length) := by
  intro out hout line hline
  left
  rw [rewrap_pos s w hw] at hout
  cases hout
  exact fillPos_line_length (by omega) (linearizeL s.data) line hline

theorem rewrap_line_widths_witness :
    (0 : Int) < 10 ∧
      (rewrap "the quick brown fox" 10 = Except.ok "the quick\nbrown fox" ∧
        ("the quick".data.length ≤ (10 : Int).toNat ∨
          ("the quick".data.all (fun c => !isWrapSpace c) = true ∧
            (10 : Int).toNat < "the quick".data.length))) := by
  refine ⟨by decide, ?hre, ?_⟩
  case hre =>
    rw [rewrap_pos "the quick brown fox" 10 (by decide)]
    simp +decide [rewrapOkL, fillPosL, wrapLinesL, wrapLoop, wrapStep,
      greedyTake, handleLongWord, hlwEndIdx, hlwSpaceLeft, rfindHyphen,
      rfindHyphenAux, splitChunks, chunksAux, wordScan, munge, expandTabsAux,
      linearizeL, collapseWS, stripL, dropTrailWS, headStripEmpty, stripEmpty,
      sumLens]
  · have := rewrap_line_widths "the quick brown fox" 10 (by decide)
      "the quick\nbrown fox" ?_ "the quick".data ?_
    · exact this
    · rw [rewrap_pos "the quick brown fox" 10 (by decide)]
      simp +decide [rewrapOkL, fillPosL, wrapLinesL, wrapLoop, wrapStep,
        greedyTake, handleLongWord, hlwEndIdx, hlwSpaceLeft, rfindHyphen,
        rfindHyphenAux, splitChunks, chunksAux, wordScan, munge, expandTabsAux,
        linearizeL, collapseWS, stripL, dropTrailWS, headStripEmpty, stripEmpty,
        sumLens]
    · decide

/-- The words of a character list: the maximal runs of non-whitespace
characters, in order.  `cur` holds the reversed current word. -/
def pyWordsAux (cur : List Char) : List Char → List (List Char)
  | [] => if cur.isEmpty then [] else [cur.reverse]
  | c :: r =>
    if isPySpace c then
      if cur.isEmpty then pyWordsAux [] r
      else cur.reverse :: pyWordsAux [] r
    else pyWordsAux (c :: cur) r

def pyWords (t : List Char) : List (List Char) :=
  pyWordsAux [] t

theorem pyWordsAux_ne_nil (t : List Char) :
    ∀ {cur : List Char}, ∀ l ∈ pyWordsAux cur t, l ≠ [] := by
  induction t with
  | nil =>
    intro cur l hl
    unfold pyWordsAux at hl
    split at hl
    · cases hl
    · rename_i hne
      rw [List.mem_singleton] at hl
      subst hl
      simp only [List.isEmpty_iff] at hne
      simpa using hne
  | cons c r ih =>
    intro cur l hl
    unfold pyWordsAux at hl
    split at hl
    · split at hl
      · exact ih l hl
      · rename_i hne
        rcases List.mem_cons.mp hl with rfl | hl
        · simp only [List.isEmpty_iff] at hne
          simpa using hne
        · exact ih l hl
    · exact ih l hl

theorem pyWordsAux_chars (t : List Char) :
    ∀ {cur : List Char} {l : List Char} {c : Char}, l ∈ pyWordsAux cur t →
      c ∈ l → c ∈ cur ∨ (c ∈ t ∧ isPySpace c = false) := by
  induction t with
  | nil =>
    intro cur l c hl hc
    unfold pyWordsAux at hl
    split at hl
    · cases hl
    · rw [List.mem_singleton] at hl
      subst hl
      exact Or.inl (List.mem_reverse.mp hc)
  | cons d r ih =>
    intro cur l c hl hc
    unfold pyWordsAux at hl
    split at hl
    · rename_i hd
      split at hl
      · rcases ih hl hc with h1 | h1
        · cases h1
        · exact Or.inr ⟨List.mem_cons_of_mem _ h1.1, h1.2⟩
      · rcases List.mem_cons.mp hl with rfl | hl
        · exact Or.inl (List.mem_reverse.mp hc)
        · rcases ih hl hc with h1 | h1
          · cases h1
          · exact Or.inr ⟨List.mem_cons_of_mem _ h1.1, h1.2⟩
    · rename_i hd
      rcases ih hl hc with h1 | h1
      · rcases List.mem_cons.mp h1 with rfl | h1
        · exact Or.inr ⟨List.mem_cons_self _ _, by simpa using hd⟩
        · exact Or.inl h1
      · exact Or.inr ⟨List.mem_cons_of_mem _ h1.1, h1.2⟩

theorem pyWordsAux_cons (cur : List Char) (c : Char) (r : List Char) :
    pyWordsAux cur (c :: r) =
      if isPySpace c then
        (if cur.isEmpty then pyWordsAux [] r
          else cur.reverse :: pyWordsAux [] r)
      else pyWordsAux (c :: cur) r := rfl

/-- Scanning a run of non-whitespace characters accumulates them onto the
current word. -/
theorem pyWordsAux_run {w : List Char} (hw : ∀ c ∈ w, isPySpace c = false) :
    ∀ (cur : List Char) (v : List Char),
      pyWordsAux cur (w ++ v) = pyWordsAux (w.reverse ++ cur) v := by
  induction w with
  | nil => intro cur v; simp
  | cons c cw ih =>
    intro cur v
    have hc : isPySpace c = false := hw c (List.mem_cons_self _ _)
    have hcw : ∀ d ∈ cw, isPySpace d = false :=
      fun d hd => hw d (List.mem_cons_of_mem _ hd)
    rw [List.cons_append, pyWordsAux_cons, if_neg (by simp [hc]), ih hcw]
    simp

theorem pyWordsAux_nonempty_cur {v : List Char} :
    ∀ {cur : List Char}, cur ≠ [] → pyWordsAux cur v ≠ [] := by
  induction v with
  | nil =>
    intro cur hcur
    unfold pyWordsAux
    rw [if_neg (by simpa [List.isEmpty_iff] using hcur)]
    simp
  | cons c r ih =>
    intro cur hcur
    unfold pyWordsAux
    split
    · rw [if_neg (by simpa [List.isEmpty_iff] using hcur)]
      simp
    · exact ih (by simp)

theorem pyWordsAux_nil (cur : List Char) :
    pyWordsAux cur [] = if cur.isEmpty then [] else [cur.reverse] := rfl

theorem intercal_cons₂ (a : Char) (w x : List Char) (ws : List (List Char)) :
    List.intercalate [a] (w :: x :: ws) =
      w ++ a :: List.intercalate [a] (x :: ws) := by
  simp [List.intercalate, List.intersperse]

theorem intercal_single (a : Char) (w : List Char) :
    List.intercalate [a] [w] = w := by
  simp [List.intercalate]

theorem intercal_pyWords :
    ∀ (n : Nat) (u : List Char), u.length ≤ n →
    noDoubleWS u = true →
    (∀ c r, u = c :: r → isPySpace c = false) →
    (∀ i c, u = i ++ [c] → isPySpace c = false) →
    (∀ c ∈ u, isPySpace c = true → c = ' ') →
    List.intercalate [' '] (pyWords u) = u := by
  intro n
  induction n with
  | zero =>
    intro u hlen _ _ _ _
    have : u = [] := List.eq_nil_of_length_eq_zero (by omega)
    subst this
    rfl
  | succ n ih =>
    intro u hlen hnd hhead hlast hchars
    rcases hu : u with _ | ⟨c, r⟩
    · rfl
    · subst hu
      have hc : isPySpace c = false := hhead c r rfl
      set word := (c :: r).takeWhile (fun x => !isPySpace x) with hword
      set v := (c :: r).dropWhile (fun x => !isPySpace x) with hv
      have hsplit : word ++ v = c :: r := by
        rw [hword, hv]
        exact List.takeWhile_append_dropWhile _ _
      have hwordc : ∀ x ∈ word, isPySpace x = false := by
        intro x hx
        have := List.mem_takeWhile_imp hx
        simpa using this
      have hwordne : word ≠ [] := by
        rw [hword, List.takeWhile_cons_of_pos (by simp [hc])]
        simp
      have hpw : pyWords (c :: r) = pyWordsAux word.reverse v := by
        unfold pyWords
        rw [← hsplit, pyWordsAux_run hwordc]
        simp
      rcases hvc : v with _ | ⟨d, v'⟩
      · rw [hvc] at hsplit
        rw [hpw, hvc, pyWordsAux_nil,
          if_neg (by simpa [List.isEmpty_iff] using hwordne)]
        rw [List.reverse_reverse, intercal_single]
        simpa using hsplit
      · rw [hvc] at hsplit
        have hd : isPySpace d = true := by
          have := head_dropWhile_false (p := fun x => !isPySpace x)
            (by rw [← hv, hvc])
          simpa using this
        have hdu : d ∈ c :: r := by
          rw [← hsplit]
          simp
        have hdsp : d = ' ' := hchars d hdu hd
        subst hdsp
        have hv'ne : v' ≠ [] := by
          intro h0
          rw [h0] at hsplit
          exact absurd (hlast word ' ' hsplit.symm) (by decide)
        have hnd2 : noDoubleWS (' ' :: v') = true := by
          apply @noDoubleWS_append_right word (' ' :: v')
          rw [hsplit]
          exact hnd
        rcases hv'c : v' with _ | ⟨e, v''⟩
        · exact absurd hv'c hv'ne
        · have he : isPySpace e = false := by
            rw [hv'c] at hnd2
            by_contra hcon
            have he' : isPySpace e = true := by
              cases h : isPySpace e
              · exact absurd h hcon
              · rfl
            simp [noDoubleWS, he',
              show isPySpace ' ' = true from by decide] at hnd2
          have hpw2 : pyWordsAux word.reverse (' ' :: v') =
              word :: pyWords v' := by
            rw [pyWordsAux_cons, if_pos (by decide),
              if_neg (by simpa [List.isEmpty_iff] using hwordne),
              List.reverse_reverse]
            rfl
          have hpwne : pyWords v' ≠ [] := by
            rw [hv'c]
            unfold pyWords
            rw [pyWordsAux_cons, if_neg (by simp [he])]
            exact pyWordsAux_nonempty_cur (by simp)
          have hlen2 : v'.length ≤ n := by
            have h1 : word.length + (1 + v'.length) = (c :: r).length := by
              rw [← hsplit]
              simp only [List.length_append, List.length_cons]
              omega
            have h2 : 1 ≤ word.length := by
              rcases hwe : word with _ | ⟨x, xs⟩
              · exact absurd hwe hwordne
              · simp
            simp only [List.length_cons] at hlen h1
            omega
          have hih : List.intercalate [' '] (pyWords v') = v' := by
            apply ih v' hlen2
            · exact noDoubleWS_tail hnd2
            · intro x xs hx
              rw [hv'c] at hx
              cases hx
              exact he
            · intro i x hx
              apply hlast (word ++ ' ' :: i) x
              rw [← hsplit, hx]
              simp
            · intro x hx hxs
              apply hchars x ?_ hxs
              rw [← hsplit]
              exact List.mem_append_right _ (List.mem_cons_of_mem _ hx)
          rw [hpw, hvc, hpw2]
          rcases hpw3 : pyWords v' with _ | ⟨x, xs⟩
          · exact absurd hpw3 hpwne
          · rw [intercal_cons₂, ← hpw3, hih, hsplit]

theorem linearizeL_eq_intercal (t : List Char) :
    List.intercalate [' '] (pyWords (linearizeL t)) = linearizeL t := by
  apply intercal_pyWords (linearizeL t).length _ (Nat.le_refl _)
  · exact noDoubleWS_linearizeL t
  · intro c r h
    exact stripL_head h
  · intro i c h
    exact stripL_getLast h
  · intro c hc hs
    rcases linearizeL_chars hc with h | h
    · exact h
    · rw [h] at hs
      cases hs

theorem pyWords_linearize_props (t : List Char) :
    ∀ w ∈ pyWords (linearizeL t),
      w ≠ [] ∧ ∀ c ∈ w, isPySpace c = false := by
  intro w hw
  refine ⟨pyWordsAux_ne_nil _ w hw, ?_⟩
  intro c hc
  rcases pyWordsAux_chars _ hw hc with h | h
  · cases h
  · exact h.2

/-- The chunk stream produced from a clean word list: words separated by
single-space chunks, starting with a space chunk. -/
def spWords : List (List Char) → List (List Char)
  | [] => []
  | w :: ws => [' '] :: w :: spWords ws

/-- The chunk stream of a clean word list: words separated by single-space
chunks. -/
def interleave : List (List Char) → List (List Char)
  | [] => []
  | w :: ws => w :: spWords ws

theorem spWords_eq_interleave {ws : List (List Char)} (h : ws ≠ []) :
    spWords ws = [' '] :: interleave ws := by
  rcases ws with _ | ⟨w, ws'⟩
  · exact absurd rfl h
  · rfl

theorem wordScan_cons (rev : List Char) (c : Char) (rest2 : List Char) :
    wordScan rev (c :: rest2) =
      if c = '-' && letterOptHyphenLetter rev && letterOptHyphenLetter rest2
      then (('-' :: rev).reverse, rest2)
      else if isWrapSpace c then (rev.reverse, c :: rest2)
      else if (match rev with | p :: _ => isWordPunct p | [] => false) &&
          emDashAhead (c :: rest2) then (rev.reverse, c :: rest2)
      else wordScan (c :: rev) rest2 := rfl

theorem emDashAhead_cons_ne {c : Char} (hc : ¬c = '-') (l : List Char) :
    emDashAhead (c :: l) = false := by
  unfold emDashAhead
  rw [List.takeWhile_cons_of_neg (by simp [hc])]
  simp

theorem wordScan_plain {w : List Char}
    (hw : ∀ c ∈ w, isPySpace c = false ∧ ¬c = '-') :
    ∀ (rev rest : List Char),
      (rest = [] ∨ ∃ d rest', rest = d :: rest' ∧ isWrapSpace d = true) →
      wordScan rev (w ++ rest) = (rev.reverse ++ w, rest) := by
  induction w with
  | nil =>
    intro rev rest hrest
    rcases hrest with rfl | ⟨d, rest', rfl, hd⟩
    · simp [wordScan]
    · have hdne : ¬(d = '-') := by
        intro h
        rw [h] at hd
        exact absurd hd (by decide)
      rw [List.nil_append, wordScan_cons,
        if_neg (by simp [hdne]), if_pos hd]
      simp
  | cons c w' ih =>
    intro rev rest hrest
    have hc := hw c (List.mem_cons_self _ _)
    have hcw : ¬isWrapSpace c = true := by
      intro h
      rw [isWrapSpace_isPySpace h] at hc
      exact Bool.noConfusion hc.1
    rw [List.cons_append, wordScan_cons,
      if_neg (by simp [hc.2]), if_neg hcw,
      if_neg (by rw [emDashAhead_cons_ne hc.2]; simp),
      ih (fun d hd => hw d (List.mem_cons_of_mem _ hd)) (c :: rev) rest hrest]
    simp

theorem intercal_nil_char :
    List.intercalate [' '] ([] : List (List Char)) = [] := by
  simp [List.intercalate]

theorem chunksAux_interleave :
    ∀ (ws : List (List Char)),
      (∀ w ∈ ws, w ≠ [] ∧ ∀ c ∈ w, isPySpace c = false ∧ ¬c = '-') →
      (∀ prev, chunksAux prev (List.intercalate [' '] ws) = interleave ws) ∧
      (∀ prev, chunksAux prev (' ' :: List.intercalate [' '] ws) =
        [' '] :: interleave ws) := by
  intro ws
  induction ws with
  | nil =>
    intro _
    refine ⟨fun prev => ?_, fun prev => ?_⟩
    · rw [intercal_nil_char]
      exact chunksAux_nil prev
    · rw [intercal_nil_char, chunksAux.eq_def]
      dsimp only
      rw [dif_pos (by decide)]
      rw [show List.takeWhile isWrapSpace [' '] = [' '] from by decide,
        show List.dropWhile isWrapSpace [' '] = [] from by decide]
      rw [chunksAux_nil]
      rfl
  | cons w ws' ih =>
    intro hws
    have hw := hws w (List.mem_cons_self _ _)
    have hws2 : ∀ x ∈ ws', x ≠ [] ∧ ∀ c ∈ x, isPySpace c = false ∧ ¬c = '-' :=
      fun x hx => hws x (List.mem_cons_of_mem _ hx)
    obtain ⟨c, w'', hwc⟩ := List.exists_cons_of_ne_nil hw.1
    have hc := hw.2 c (by rw [hwc]; exact List.mem_cons_self _ _)
    have hcw : ¬isWrapSpace c = true := by
      intro h
      rw [isWrapSpace_isPySpace h] at hc
      exact Bool.noConfusion hc.1
    have hwtail : ∀ d ∈ w'', isPySpace d = false ∧ ¬d = '-' :=
      fun d hd => hw.2 d (by rw [hwc]; exact List.mem_cons_of_mem _ hd)
    have part1 : ∀ prev,
        chunksAux prev (List.intercalate [' '] (w :: ws')) =
          interleave (w :: ws') := by
      intro prev
      rcases ws' with _ | ⟨x, xs⟩
      · rw [intercal_single, hwc, chunksAux.eq_def]
        dsimp only
        rw [dif_neg hcw, if_neg (by simp [hc.2])]
        have hs := wordScan_plain hwtail [c] [] (Or.inl rfl)
        rw [List.append_nil] at hs
        rw [hs]
        simp only [List.reverse_cons, List.reverse_nil, List.nil_append,
          List.singleton_append]
        rw [chunksAux_nil, ← hwc]
        rfl
      · rw [intercal_cons₂, hwc, List.cons_append, chunksAux.eq_def]
        dsimp only
        rw [dif_neg hcw, if_neg (by simp [hc.2])]
        have hs := wordScan_plain hwtail [c]
          (' ' :: List.intercalate [' '] (x :: xs))
          (Or.inr ⟨' ', _, rfl, by decide⟩)
        rw [hs]
        rw [(ih hws2).2]
        simp only [List.reverse_cons, List.reverse_nil, List.nil_append,
          List.singleton_append]
        rw [← hwc]
        rfl
    refine ⟨part1, fun prev => ?_⟩
    have hhead : ∃ tl, List.intercalate [' '] (w :: ws') = c :: tl := by
      rcases ws' with _ | ⟨x, xs⟩
      · exact ⟨w'', by rw [intercal_single, hwc]⟩
      · exact ⟨w'' ++ ' ' :: List.intercalate [' '] (x :: xs), by
          rw [intercal_cons₂, hwc, List.cons_append]⟩
    obtain ⟨tl, htl⟩ := hhead
    rw [htl, chunksAux.eq_def]
    dsimp only
    rw [dif_pos (by decide)]
    rw [List.takeWhile_cons_of_pos (by decide),
      List.takeWhile_cons_of_neg hcw,
      List.dropWhile_cons_of_pos (by decide),
      List.dropWhile_cons_of_neg hcw]
    rw [← htl, part1]

theorem greedyTake_cons (width curLen : Nat) (c : List Char)
    (rest : List (List Char)) :
    greedyTake width curLen (c :: rest) =
      if curLen + c.length ≤ width then
        (c :: (greedyTake width (curLen + c.length) rest).1,
          (greedyTake width (curLen + c.length) rest).2)
      else ([], c :: rest) := rfl

/-- The greedy packing of further words onto a line that already holds
`curLen` characters: take the next word while the line stays within the
width, counting one space before each word. -/
def specGreedy (width : Nat) (curLen : Nat) : List (List Char) →
    List (List Char) × List (List Char)
  | [] => ([], [])
  | w :: ws =>
    if curLen + 1 + w.length ≤ width then
      ((w :: (specGreedy width (curLen + 1 + w.length) ws).1),
        (specGreedy width (curLen + 1 + w.length) ws).2)
    else ([], w :: ws)

theorem specGreedy_append (width : Nat) (ws : List (List Char)) :
    ∀ curLen, (specGreedy width curLen ws).1 ++ (specGreedy width curLen ws).2
      = ws := by
  induction ws with
  | nil => intro curLen; rfl
  | cons w ws' ih =>
    intro curLen
    unfold specGreedy
    split
    · simpa using ih (curLen + 1 + w.length)
    · simp

theorem specGreedy_snd_length (width curLen : Nat) (ws : List (List Char)) :
    (specGreedy width curLen ws).2.length ≤ ws.length := by
  have := specGreedy_append width ws curLen
  have hl := congrArg List.length this
  rw [List.length_append] at hl
  omega

/-- Greedy line partitioning of a word list: the first word always starts a
line, and `specGreedy` fills the rest of the line. -/
def greedyPartition (width : Nat) : List (List Char) →
    List (List (List Char))
  | [] => []
  | w :: ws =>
    (w :: (specGreedy width w.length ws).1) ::
      greedyPartition width (specGreedy width w.length ws).2
  termination_by ws => ws.length
  decreasing_by
    simp only [List.length_cons]
    exact Nat.lt_succ_of_le (specGreedy_snd_length _ _ _)

theorem greedyPartition_nil (width : Nat) : greedyPartition width [] = [] := by
  rw [greedyPartition.eq_def]

theorem greedyPartition_cons (width : Nat) (w : List Char)
    (ws : List (List Char)) :
    greedyPartition width (w :: ws) =
      (w :: (specGreedy width w.length ws).1) ::
        greedyPartition width (specGreedy width w.length ws).2 := by
  rw [greedyPartition.eq_def]

theorem stripEmpty_word {w : List Char} (hne : w ≠ [])
    (h : ∀ c ∈ w, isPySpace c = false) : stripEmpty w = false := by
  rcases w with _ | ⟨c, r⟩
  · exact absurd rfl hne
  · unfold stripEmpty
    simp only [List.all_cons, Bool.and_eq_false_iff]
    exact Or.inl (h c (List.mem_cons_self _ _))

theorem flatten_spWords (ws : List (List Char)) :
    (spWords ws).flatten =
      (match ws with
        | [] => ([] : List Char)
        | x :: xs => ' ' :: List.intercalate [' '] (x :: xs)) := by
  induction ws with
  | nil => rfl
  | cons x xs ih =>
    dsimp only
    rcases xs with _ | ⟨y, ys⟩
    · simp [spWords, intercal_single]
    · rw [show spWords (x :: y :: ys) = [' '] :: x :: spWords (y :: ys)
        from rfl, List.flatten_cons, List.flatten_cons, ih]
      dsimp only
      rw [intercal_cons₂]
      simp

theorem flatten_interleave (ws : List (List Char)) :
    (interleave ws).flatten = List.intercalate [' '] ws := by
  rcases ws with _ | ⟨w, ws'⟩
  · rfl
  · show w ++ (spWords ws').flatten = List.intercalate [' '] (w :: ws')
    rw [flatten_spWords]
    rcases ws' with _ | ⟨x, xs⟩
    · rw [intercal_single]
      simp
    · rw [intercal_cons₂]

theorem getLast_interleave {ws : List (List Char)} (hne : ws ≠ []) :
    ∃ lw ∈ ws, (interleave ws).getLast? = some lw := by
  induction ws with
  | nil => exact absurd rfl hne
  | cons w ws' ih =>
    rcases ws' with _ | ⟨x, xs⟩
    · exact ⟨w, List.mem_cons_self _ _, rfl⟩
    · obtain ⟨lw, hmem, hlast⟩ := ih (by simp)
      refine ⟨lw, List.mem_cons_of_mem _ hmem, ?_⟩
      rw [show interleave (w :: x :: xs) =
        w :: [' '] :: interleave (x :: xs) from rfl]
      rw [List.getLast?_cons_cons]
      rcases hxi : interleave (x :: xs) with _ | ⟨z, zs⟩
      · exact absurd hxi (by simp [interleave])
      · rw [hxi] at hlast
        rw [List.getLast?_cons_cons, hlast]

theorem dropTrail_interleave {ws : List (List Char)} (hne : ws ≠ [])
    (h : ∀ w ∈ ws, w ≠ [] ∧ ∀ c ∈ w, isPySpace c = false) :
    dropTrailWS (interleave ws) = interleave ws := by
  obtain ⟨lw, hmem, hlast⟩ := getLast_interleave hne
  unfold dropTrailWS
  rw [hlast]
  dsimp only
  rw [stripEmpty_word (h lw hmem).1 (h lw hmem).2]
  simp

theorem dropTrail_concat_space (l : List (List Char)) :
    dropTrailWS (l ++ [[' ']]) = l := by
  unfold dropTrailWS
  rw [List.getLast?_concat]
  dsimp only
  rw [show stripEmpty [' '] = true from by decide]
  simp

theorem specGreedy_cons (width curLen : Nat) (w : List Char)
    (ws : List (List Char)) :
    specGreedy width curLen (w :: ws) =
      if curLen + 1 + w.length ≤ width then
        ((w :: (specGreedy width (curLen + 1 + w.length) ws).1),
          (specGreedy width (curLen + 1 + w.length) ws).2)
      else ([], w :: ws) := rfl

theorem greedyTake_spWords {width : Nat} (ws : List (List Char)) :
    ∀ curLen : Nat,
      greedyTake width curLen (spWords ws) =
        (if (specGreedy width curLen ws).2.isEmpty then
          (spWords (specGreedy width curLen ws).1, [])
        else if curLen + chunkMeasure (specGreedy width curLen ws).1 + 1 ≤
            width then
          (spWords (specGreedy width curLen ws).1 ++ [[' ']],
            interleave (specGreedy width curLen ws).2)
        else
          (spWords (specGreedy width curLen ws).1,
            spWords (specGreedy width curLen ws).2)) := by
  induction ws with
  | nil =>
    intro curLen
    rfl
  | cons w ws' ih =>
    intro curLen
    rw [show spWords (w :: ws') = [' '] :: w :: spWords ws' from rfl,
      greedyTake_cons]
    simp only [List.length_singleton]
    rw [specGreedy_cons]
    by_cases hsp : curLen + 1 ≤ width
    · rw [if_pos hsp, greedyTake_cons]
      by_cases hwf : curLen + 1 + w.length ≤ width
      · rw [if_pos hwf, if_pos hwf, ih (curLen + 1 + w.length)]
        set sg := specGreedy width (curLen + 1 + w.length) ws' with hsg
        by_cases hre : sg.2.isEmpty = true
        · rw [if_pos hre]
          dsimp only
          rw [if_pos hre]
          rfl
        · rw [if_neg hre]
          dsimp only
          rw [if_neg hre]
          by_cases hfit : curLen + 1 + w.length + chunkMeasure sg.1 + 1 ≤ width
          · rw [if_pos hfit,
              if_pos (show curLen + chunkMeasure (w :: sg.1) + 1 ≤ width by
                rw [chunkMeasure_cons]; omega)]
            simp [spWords]
          · rw [if_neg hfit,
              if_neg (show ¬(curLen + chunkMeasure (w :: sg.1) + 1 ≤ width) by
                rw [chunkMeasure_cons]; omega)]
            rfl
      · rw [if_neg hwf, if_neg hwf]
        rw [if_neg (by simp)]
        rw [if_pos (by
          simp only [chunkMeasure, List.map_nil, List.sum_nil]
          omega)]
        rfl
    · rw [if_neg hsp]
      rw [if_neg (show ¬(curLen + 1 + w.length ≤ width) by omega)]
      rw [if_neg (by simp)]
      rw [if_neg (by
        simp only [chunkMeasure, List.map_nil, List.sum_nil]
        omega)]
      rfl

theorem headStripEmpty_cons (c : List Char) (l : List (List Char)) :
    headStripEmpty (c :: l) = stripEmpty c := rfl

theorem wrapLoop_space_only (width : Nat) :
    wrapLoop width [[' ']] true = [] := by
  rw [wrapLoop_cons]
  rw [show (true && headStripEmpty ([[' ']] : List (List Char))) = true
    from by decide]
  rw [if_pos rfl]
  rw [show wrapStep width ([] : List (List Char)) = ([], []) from rfl]
  dsimp only
  rw [if_pos (show (dropTrailWS ([] : List (List Char))).isEmpty = true
    from rfl)]
  exact wrapLoop_nil width true

theorem wrapLoop_words {width : Nat} (hwpos : 1 ≤ width) :
    ∀ (n : Nat) (ws : List (List Char)), ws.length ≤ n →
      (∀ w ∈ ws, w ≠ [] ∧ (∀ c ∈ w, isPySpace c = false) ∧
        w.length ≤ width) →
      (∀ b, wrapLoop width (interleave ws) b =
        (greedyPartition width ws).map (List.intercalate [' '])) ∧
      (wrapLoop width ([' '] :: interleave ws) true =
        (greedyPartition width ws).map (List.intercalate [' '])) := by
  intro n
  induction n with
  | zero =>
    intro ws hlen _
    have hnil : ws = [] := List.eq_nil_of_length_eq_zero (by omega)
    subst hnil
    refine ⟨fun b => ?_, ?_⟩
    · rw [show interleave [] = [] from rfl, wrapLoop_nil, greedyPartition_nil]
      rfl
    · rw [show interleave [] = [] from rfl, wrapLoop_space_only,
        greedyPartition_nil]
      rfl
  | succ n ih =>
    intro ws hlen hws
    rcases ws with _ | ⟨w, ws'⟩
    · refine ⟨fun b => ?_, ?_⟩
      · rw [show interleave [] = [] from rfl, wrapLoop_nil,
          greedyPartition_nil]
        rfl
      · rw [show interleave [] = [] from rfl, wrapLoop_space_only,
          greedyPartition_nil]
        rfl
    · have hw := hws w (List.mem_cons_self _ _)
      have hws2 : ∀ x ∈ ws', x ≠ [] ∧ (∀ c ∈ x, isPySpace c = false) ∧
          x.length ≤ width := fun x hx => hws x (List.mem_cons_of_mem _ hx)
      have hsw : stripEmpty w = false := stripEmpty_word hw.1 hw.2.1
      have hlen' : ws'.length ≤ n := by
        simp only [List.length_cons] at hlen
        omega
      have hsga := specGreedy_append width ws' w.length
      have hmem1 : ∀ x ∈ (specGreedy width w.length ws').1, x ∈ ws' := by
        intro x hx
        rw [← hsga]
        exact List.mem_append_left _ hx
      have hmem2 : ∀ x ∈ (specGreedy width w.length ws').2, x ∈ ws' := by
        intro x hx
        rw [← hsga]
        exact List.mem_append_right _ hx
      have hlen2 : (specGreedy width w.length ws').2.length ≤ n :=
        Nat.le_trans (specGreedy_snd_length width w.length ws') hlen'
      have hprops1 : ∀ x ∈ w :: (specGreedy width w.length ws').1,
          x ≠ [] ∧ ∀ c ∈ x, isPySpace c = false := by
        intro x hx
        rcases List.mem_cons.mp hx with rfl | hx
        · exact ⟨hw.1, hw.2.1⟩
        · exact ⟨(hws2 x (hmem1 x hx)).1, (hws2 x (hmem1 x hx)).2.1⟩
      have hgt : greedyTake width 0 (w :: spWords ws') =
          (w :: (greedyTake width w.length (spWords ws')).1,
            (greedyTake width w.length (spWords ws')).2) := by
        rw [greedyTake_cons, if_pos (by have := hw.2.2; omega), Nat.zero_add]
      have hihsg := ih (specGreedy width w.length ws').2 hlen2
        (fun y hy => hws2 y (hmem2 y hy))
      have core : ∀ b,
          (if (dropTrailWS (wrapStep width (w :: spWords ws')).1).isEmpty =
              true then
            wrapLoop width (wrapStep width (w :: spWords ws')).2 b
          else (dropTrailWS (wrapStep width (w :: spWords ws')).1).flatten ::
            wrapLoop width (wrapStep width (w :: spWords ws')).2 true) =
          (greedyPartition width (w :: ws')).map (List.intercalate [' ']) := by
        intro b
        rw [greedyPartition_cons]
        by_cases hre : (specGreedy width w.length ws').2.isEmpty = true
        · have hstep : wrapStep width (w :: spWords ws') =
              (w :: spWords (specGreedy width w.length ws').1, []) := by
            unfold wrapStep
            rw [hgt, greedyTake_spWords ws' w.length, if_pos hre]
          rw [hstep]
          dsimp only
          have hdrop : dropTrailWS (w :: spWords
              (specGreedy width w.length ws').1) =
              w :: spWords (specGreedy width w.length ws').1 :=
            @dropTrail_interleave (w :: (specGreedy width w.length ws').1)
              (by simp) hprops1
          rw [hdrop]
          rw [if_neg (by simp), wrapLoop_nil]
          rw [show (w :: spWords (specGreedy width w.length ws').1).flatten =
            List.intercalate [' '] (w :: (specGreedy width w.length ws').1)
            from flatten_interleave (w :: (specGreedy width w.length ws').1)]
          rw [show (specGreedy width w.length ws').2 = [] from by
            simpa [List.isEmpty_iff] using hre]
          rw [greedyPartition_nil]
          rfl
        · obtain ⟨x, xs, hsg2⟩ := List.exists_cons_of_ne_nil
            (show (specGreedy width w.length ws').2 ≠ [] by
              simpa [List.isEmpty_iff] using hre)
          have hxmem : x ∈ (specGreedy width w.length ws').2 := by
            rw [hsg2]
            exact List.mem_cons_self _ _
          have hxw : x.length ≤ width := (hws2 x (hmem2 x hxmem)).2.2
          by_cases hfit : w.length +
              chunkMeasure (specGreedy width w.length ws').1 + 1 ≤ width
          · have hstep : wrapStep width (w :: spWords ws') =
                (w :: (spWords (specGreedy width w.length ws').1 ++ [[' ']]),
                  interleave (specGreedy width w.length ws').2) := by
              unfold wrapStep
              rw [hgt, greedyTake_spWords ws' w.length, if_neg hre,
                if_pos (by omega), hsg2]
              rw [show interleave (x :: xs) = x :: spWords xs from rfl]
              dsimp only
              rw [if_neg (by omega)]
            rw [hstep]
            dsimp only
            rw [show w :: (spWords (specGreedy width w.length ws').1 ++
                [[' ']]) = (w :: spWords (specGreedy width w.length ws').1)
                ++ [[' ']] from rfl]
            rw [dropTrail_concat_space]
            rw [if_neg (by simp)]
            rw [show (w :: spWords (specGreedy width w.length ws').1).flatten =
              List.intercalate [' '] (w :: (specGreedy width w.length ws').1)
              from flatten_interleave (w :: (specGreedy width w.length ws').1)]
            rw [hihsg.1 true]
            rfl
          · have hstep : wrapStep width (w :: spWords ws') =
                (w :: spWords (specGreedy width w.length ws').1,
                  [' '] :: interleave (specGreedy width w.length ws').2) := by
              unfold wrapStep
              rw [hgt, greedyTake_spWords ws' w.length, if_neg hre,
                if_neg (by omega), hsg2]
              rw [show spWords (x :: xs) = [' '] :: x :: spWords xs from rfl]
              dsimp only
              rw [if_neg (show ¬(width < ([' '] : List Char).length) by
                simp only [List.length_singleton]
                omega)]
              exact rfl
            rw [hstep]
            dsimp only
            have hdrop : dropTrailWS (w :: spWords
                (specGreedy width w.length ws').1) =
                w :: spWords (specGreedy width w.length ws').1 :=
              @dropTrail_interleave (w :: (specGreedy width w.length ws').1)
                (by simp) hprops1
            rw [hdrop]
            rw [if_neg (by simp)]
            rw [show (w :: spWords (specGreedy width w.length ws').1).flatten =
              List.intercalate [' '] (w :: (specGreedy width w.length ws').1)
              from flatten_interleave (w :: (specGreedy width w.length ws').1)]
            rw [hihsg.2]
            rfl
      refine ⟨fun b => ?_, ?_⟩
      · rw [show interleave (w :: ws') = w :: spWords ws' from rfl,
          wrapLoop_cons]
        rw [show (b && headStripEmpty (w :: spWords ws')) = false from by
          rw [headStripEmpty_cons, hsw]; simp]
        rw [if_neg (show ¬(false = true) by simp)]
        exact core b
      · rw [wrapLoop_cons]
        rw [show (true && headStripEmpty ([' '] ::
            interleave (w :: ws'))) = true from by
          rw [headStripEmpty_cons]; decide]
        rw [if_pos rfl]
        rw [show interleave (w :: ws') = w :: spWords ws' from rfl]
        exact core true

/-- The characterwise whitespace-to-space translation: on a string with no
adjacent whitespace characters, `re.sub` with pattern `\s+` acts like this
map. -/
def sigmaWS (c : Char) : Char :=
  if isPySpace c then ' ' else c

theorem sigmaWS_nospace {c : Char} (h : isPySpace c = false) :
    sigmaWS c = c := by
  simp [sigmaWS, h]

theorem sigmaWS_space {c : Char} (h : isPySpace c = true) :
    sigmaWS c = ' ' := by
  simp [sigmaWS, h]

theorem collapseWS_map :
    ∀ u : List Char, noDoubleWS u = true →
      collapseWS false u = u.map sigmaWS ∧
      ((∀ c r, u = c :: r → isPySpace c = false) →
        collapseWS true u = u.map sigmaWS) := by
  intro u
  induction u with
  | nil => exact fun _ => ⟨rfl, fun _ => rfl⟩
  | cons c r ih =>
    intro h
    have hr := noDoubleWS_tail h
    by_cases hc : isPySpace c = true
    · have hrhead : ∀ d s, r = d :: s → isPySpace d = false := by
        intro d s hds
        subst hds
        have h1 : (!(isPySpace c && isPySpace d)) = true := by
          simp only [noDoubleWS, Bool.and_eq_true] at h
          exact h.1
        cases hd : isPySpace d with
        | false => rfl
        | true =>
          rw [hc, hd] at h1
          exact absurd h1 (by decide)
      constructor
      · rw [show collapseWS false (c :: r) = ' ' :: collapseWS true r from by
          simp [collapseWS, hc]]
        rw [(ih hr).2 hrhead, List.map_cons, sigmaWS_space hc]
      · intro hhead
        exact absurd (hhead c r rfl) (by simp [hc])
    · have hc' : isPySpace c = false := by simpa using hc
      constructor
      · rw [show collapseWS false (c :: r) = c :: collapseWS false r from by
          simp [collapseWS, hc']]
        rw [(ih hr).1, List.map_cons, sigmaWS_nospace hc']
      · intro _
        rw [show collapseWS true (c :: r) = c :: collapseWS false r from by
          simp [collapseWS, hc']]
        rw [(ih hr).1, List.map_cons, sigmaWS_nospace hc']

theorem stripL_id (u : List Char)
    (hh : ∀ c r, u = c :: r → isPySpace c = false)
    (hl : ∀ i c, u = i ++ [c] → isPySpace c = false) :
    stripL u = u := by
  unfold stripL
  have h1 : u.dropWhile isPySpace = u := by
    cases hu : u with
    | nil => rfl
    | cons c r =>
      rw [List.dropWhile_cons, if_neg (by simp [hh c r hu])]
  rw [h1]
  rcases List.eq_nil_or_concat u with hu | ⟨i, c, hu⟩
  · subst hu
    rfl
  · rw [List.concat_eq_append] at hu
    rw [hu, List.reverse_concat]
    rw [List.dropWhile_cons, if_neg (by simp [hl i c hu])]
    rw [← List.reverse_concat, List.reverse_reverse]

theorem linearizeL_clean (u : List Char) (hnd : noDoubleWS u = true)
    (hh : ∀ c r, u = c :: r → isPySpace c = false)
    (hl : ∀ i c, u = i ++ [c] → isPySpace c = false) :
    linearizeL u = u.map sigmaWS := by
  unfold linearizeL
  rw [(collapseWS_map u hnd).1]
  apply stripL_id
  · intro c r hcr
    rcases hu : u with _ | ⟨d, s⟩
    · rw [hu] at hcr
      simp at hcr
    · rw [hu, List.map_cons] at hcr
      have hd := hh d s hu
      injection hcr with h1 _
      rw [← h1, sigmaWS_nospace hd]
      exact hd
  · intro i c hic
    rcases List.eq_nil_or_concat u with hu | ⟨j, d, hu⟩
    · rw [hu] at hic
      simp at hic
    · rw [List.concat_eq_append] at hu
      have hd := hl j d hu
      have h2 := congrArg List.getLast? hic
      rw [List.getLast?_concat] at h2
      rw [hu, List.map_append, List.map_cons, List.map_nil,
        List.getLast?_concat] at h2
      injection h2 with h3
      rw [← h3, sigmaWS_nospace hd]
      exact hd

theorem map_intercal (f : Char → Char) (a : Char) :
    ∀ bs : List (List Char),
      (List.intercalate [a] bs).map f =
        List.intercalate [f a] (bs.map (List.map f)) := by
  intro bs
  induction bs with
  | nil => simp [List.intercalate]
  | cons w bs ih =>
    cases bs with
    | nil =>
      rw [List.map_cons, List.map_nil, intercal_single, intercal_single]
    | cons x bs' =>
      rw [intercal_cons₂, List.map_append, List.map_cons, ih]
      rw [show (w :: x :: bs').map (List.map f) =
        List.map f w :: (x :: bs').map (List.map f) from rfl]
      rw [show (x :: bs').map (List.map f) = List.map f x ::
        bs'.map (List.map f) from rfl]
      rw [intercal_cons₂]

theorem map_sigma_id {w : List Char} (h : ∀ c ∈ w, isPySpace c = false) :
    w.map sigmaWS = w := by
  conv_rhs => rw [← List.map_id w]
  apply List.map_congr_left
  intro c hc
  simp [sigmaWS_nospace (h c hc)]

theorem map_sigma_words (g : List (List Char))
    (h : ∀ w ∈ g, ∀ c ∈ w, isPySpace c = false) :
    (List.intercalate [' '] g).map sigmaWS = List.intercalate [' '] g := by
  rw [map_intercal]
  rw [show sigmaWS ' ' = ' ' from by decide]
  congr 1
  conv_rhs => rw [← List.map_id g]
  apply List.map_congr_left
  intro w hw
  simpa using map_sigma_id (h w hw)

theorem intercal_append (a : Char) :
    ∀ (g h : List (List Char)), g ≠ [] → h ≠ [] →
      List.intercalate [a] (g ++ h) =
        List.intercalate [a] g ++ a :: List.intercalate [a] h := by
  intro g
  induction g with
  | nil => intro h hg _; exact absurd rfl hg
  | cons w g' ih =>
    intro h _ hh
    cases g' with
    | nil =>
      rcases List.exists_cons_of_ne_nil hh with ⟨x, h', rfl⟩
      rw [show ([w] : List (List Char)) ++ x :: h' = w :: x :: h' from rfl]
      rw [intercal_cons₂, intercal_single]
    | cons y g'' =>
      have h1 : List.intercalate [a] ((y :: g'') ++ h) =
          List.intercalate [a] (y :: g'') ++ a :: List.intercalate [a] h :=
        ih h (List.cons_ne_nil _ _) hh
      rw [show (w :: y :: g'') ++ h = w :: (y :: (g'' ++ h)) from rfl]
      rw [intercal_cons₂ a w y (g'' ++ h)]
      rw [show y :: (g'' ++ h) = (y :: g'') ++ h from rfl]
      rw [h1, intercal_cons₂ a w y g'']
      simp [List.append_assoc]

theorem intercal_flatten (a : Char) :
    ∀ gs : List (List (List Char)), (∀ g ∈ gs, g ≠ []) →
      List.intercalate [a] (gs.map (List.intercalate [a])) =
        List.intercalate [a] gs.flatten := by
  intro gs
  induction gs with
  | nil => intro _; rfl
  | cons g gs' ih =>
    intro hne
    have hg : g ≠ [] := hne g (List.mem_cons_self _ _)
    have hgs' : ∀ x ∈ gs', x ≠ [] :=
      fun x hx => hne x (List.mem_cons_of_mem _ hx)
    cases gs' with
    | nil =>
      rw [List.map_cons, List.map_nil, intercal_single]
      rw [show ([g] : List (List (List Char))).flatten = g ++ [] from rfl,
        List.append_nil]
    | cons g2 gs'' =>
      have hfl : (g2 :: gs'').flatten ≠ [] := by
        rw [show (g2 :: gs'').flatten = g2 ++ gs''.flatten from rfl]
        intro hcontra
        exact hgs' g2 (List.mem_cons_self _ _)
          (List.append_eq_nil.mp hcontra).1
      rw [List.map_cons]
      rw [show (g2 :: gs'').map (List.intercalate [a]) =
        List.intercalate [a] g2 :: gs''.map (List.intercalate [a]) from rfl]
      rw [intercal_cons₂]
      rw [show (List.intercalate [a] g2 :: gs''.map (List.intercalate [a])) =
        (g2 :: gs'').map (List.intercalate [a]) from rfl]
      rw [ih hgs']
      rw [show (g :: g2 :: gs'').flatten = g ++ (g2 :: gs'').flatten from rfl]
      rw [intercal_append a g ((g2 :: gs'').flatten) hg hfl]

theorem noDoubleWS_cons_of {c : Char} {r : List Char}
    (hr : noDoubleWS r = true)
    (h : ∀ d, r.head? = some d → (isPySpace c && isPySpace d) = false) :
    noDoubleWS (c :: r) = true := by
  cases r with
  | nil => rfl
  | cons d s =>
    simp only [noDoubleWS, Bool.and_eq_true, Bool.not_eq_true']
    exact ⟨h d rfl, hr⟩

theorem noDoubleWS_glue :
    ∀ (u v : List Char), noDoubleWS u = true → noDoubleWS v = true →
      (∀ c, u.getLast? = some c → ∀ d, v.head? = some d →
        (isPySpace c && isPySpace d) = false) →
      noDoubleWS (u ++ v) = true := by
  intro u
  induction u with
  | nil => intro v _ hv _; simpa using hv
  | cons x u' ih =>
    intro v hu hv hb
    cases u' with
    | nil =>
      rw [List.singleton_append]
      apply noDoubleWS_cons_of hv
      intro d hd
      exact hb x (by simp) d hd
    | cons y u'' =>
      rw [List.cons_append]
      apply noDoubleWS_cons_of
      · apply ih v (noDoubleWS_tail hu) hv
        intro c hc d hd
        apply hb c _ d hd
        rw [List.getLast?_cons_cons]
        exact hc
      · intro d hd
        rw [List.cons_append, List.head?_cons] at hd
        injection hd with hd
        subst hd
        have h1 : (!(isPySpace x && isPySpace y)) = true := by
          simp only [noDoubleWS, Bool.and_eq_true] at hu
          exact hu.1
        exact (Bool.not_eq_true' ..).mp h1

theorem noDoubleWS_of_nospace :
    ∀ w : List Char, (∀ c ∈ w, isPySpace c = false) →
      noDoubleWS w = true := by
  intro w
  induction w with
  | nil => intro _; rfl
  | cons c r ih =>
    intro h
    apply noDoubleWS_cons_of (ih (fun d hd => h d (List.mem_cons_of_mem _ hd)))
    intro d _
    rw [h c (List.mem_cons_self _ _)]
    rfl

theorem word_props {w : List Char} (h : ∀ c ∈ w, isPySpace c = false) :
    noDoubleWS w = true ∧
      (∀ c, w.head? = some c → isPySpace c = false) ∧
      (∀ c, w.getLast? = some c → isPySpace c = false) := by
  refine ⟨noDoubleWS_of_nospace w h, ?_, ?_⟩
  · intro c hc
    cases w with
    | nil => simp at hc
    | cons d s =>
      rw [List.head?_cons] at hc
      injection hc with hc
      subst hc
      exact h _ (List.mem_cons_self _ _)
  · intro c hc
    rcases List.eq_nil_or_concat w with rfl | ⟨i, d, hw⟩
    · simp at hc
    · rw [List.concat_eq_append] at hw
      subst hw
      rw [List.getLast?_concat] at hc
      injection hc with hc
      subst hc
      exact h _ (by simp)

theorem intercal_props (a : Char) :
    ∀ bs : List (List Char),
      (∀ bl ∈ bs, bl ≠ [] ∧ noDoubleWS bl = true ∧
        (∀ c, bl.head? = some c → isPySpace c = false) ∧
        (∀ c, bl.getLast? = some c → isPySpace c = false)) →
      bs ≠ [] →
      List.intercalate [a] bs ≠ [] ∧
      noDoubleWS (List.intercalate [a] bs) = true ∧
      (∀ c, (List.intercalate [a] bs).head? = some c →
        isPySpace c = false) ∧
      (∀ c, (List.intercalate [a] bs).getLast? = some c →
        isPySpace c = false) := by
  intro bs
  induction bs with
  | nil => intro _ hne; exact absurd rfl hne
  | cons w bs' ih =>
    intro hp _
    have hw := hp w (List.mem_cons_self _ _)
    cases bs' with
    | nil =>
      rw [intercal_single]
      exact ⟨hw.1, hw.2⟩
    | cons x bs'' =>
      obtain ⟨hRne, hRnd, hRh, hRl⟩ :=
        ih (fun bl hbl => hp bl (List.mem_cons_of_mem _ hbl))
          (List.cons_ne_nil _ _)
      rw [intercal_cons₂]
      refine ⟨?_, ?_, ?_, ?_⟩
      · rcases List.exists_cons_of_ne_nil hw.1 with ⟨c0, w', hw0⟩
        rw [hw0]
        simp
      · apply noDoubleWS_glue w (a :: List.intercalate [a] (x :: bs''))
          hw.2.1
        · apply noDoubleWS_cons_of hRnd
          intro d hd
          rw [hRh d hd, Bool.and_false]
        · intro c hc d hd
          rw [List.head?_cons] at hd
          injection hd with hd
          subst hd
          rw [hw.2.2.2 c hc]
          rfl
      · intro c hc
        rcases List.exists_cons_of_ne_nil hw.1 with ⟨c0, w', hw0⟩
        rw [hw0, List.cons_append, List.head?_cons] at hc
        injection hc with hc
        subst hc
        exact hw.2.2.1 c0 (by rw [hw0]; simp)
      · intro c hc
        have hstep : (a :: List.intercalate [a] (x :: bs'')).getLast? =
            (List.intercalate [a] (x :: bs'')).getLast? := by
          rcases List.exists_cons_of_ne_nil hRne with ⟨r0, R', hR0⟩
          rw [hR0, List.getLast?_cons_cons]
        rw [List.getLast?_append, hstep] at hc
        rcases hRL : (List.intercalate [a] (x :: bs'')).getLast? with _ | c1
        · exact absurd (List.getLast?_eq_none_iff.mp hRL) hRne
        · rw [hRL] at hc
          simp only [Option.or_some] at hc
          injection hc with hc
          subst hc
          exact hRl c1 hRL

theorem out_map_sigma (gs : List (List (List Char)))
    (hw : ∀ g ∈ gs, ∀ x ∈ g, x ≠ [] ∧ ∀ c ∈ x, isPySpace c = false)
    (hgne : ∀ g ∈ gs, g ≠ []) :
    (List.intercalate ['\n'] (gs.map (List.intercalate [' ']))).map sigmaWS
      = List.intercalate [' '] gs.flatten := by
  rw [map_intercal]
  rw [show sigmaWS '\n' = ' ' from by decide]
  have hfix : (gs.map (List.intercalate [' '])).map (List.map sigmaWS) =
      gs.map (List.intercalate [' ']) := by
    conv_rhs => rw [← List.map_id (gs.map (List.intercalate [' ']))]
    apply List.map_congr_left
    intro bl hbl
    rw [List.mem_map] at hbl
    obtain ⟨g, hg, rfl⟩ := hbl
    simpa using map_sigma_words g (fun x hx => (hw g hg x hx).2)
  rw [hfix]
  exact intercal_flatten ' ' gs hgne

theorem linearize_out (gs : List (List (List Char)))
    (hgne : ∀ g ∈ gs, g ≠ [])
    (hw : ∀ g ∈ gs, ∀ x ∈ g, x ≠ [] ∧ ∀ c ∈ x, isPySpace c = false) :
    linearizeL (List.intercalate ['\n'] (gs.map (List.intercalate [' '])))
      = List.intercalate [' '] gs.flatten := by
  rcases hgs : gs with _ | ⟨g0, gs'⟩
  · rfl
  · rw [← hgs]
    have hblocks : ∀ bl ∈ gs.map (List.intercalate [' ']), bl ≠ [] ∧
        noDoubleWS bl = true ∧
        (∀ c, bl.head? = some c → isPySpace c = false) ∧
        (∀ c, bl.getLast? = some c → isPySpace c = false) := by
      intro bl hbl
      rw [List.mem_map] at hbl
      obtain ⟨g, hg, rfl⟩ := hbl
      exact intercal_props ' ' g
        (fun x hx => ⟨(hw g hg x hx).1, word_props (hw g hg x hx).2⟩)
        (hgne g hg)
    obtain ⟨hone, hond, honh, honl⟩ := intercal_props '\n'
      (gs.map (List.intercalate [' '])) hblocks
      (by rw [hgs]; simp)
    rw [linearizeL_clean _ hond
      (fun c r hcr => honh c (by rw [hcr]; rfl))
      (fun i c hic => honl c (by rw [hic, List.getLast?_concat]))]
    exact out_map_sigma gs hw hgne

theorem greedyPartition_facts (width : Nat) :
    ∀ (n : Nat) (ws : List (List Char)), ws.length ≤ n →
      (greedyPartition width ws).flatten = ws ∧
      (∀ g ∈ greedyPartition width ws, g ≠ []) := by
  intro n
  induction n with
  | zero =>
    intro ws h
    have hnil : ws = [] := List.eq_nil_of_length_eq_zero (by omega)
    subst hnil
    rw [greedyPartition_nil]
    exact ⟨rfl, by simp⟩
  | succ n ih =>
    intro ws h
    rcases ws with _ | ⟨w, ws'⟩
    · rw [greedyPartition_nil]
      exact ⟨rfl, by simp⟩
    · rw [greedyPartition_cons]
      have hlen2 : (specGreedy width w.length ws').2.length ≤ n := by
        have := specGreedy_snd_length width w.length ws'
        simp only [List.length_cons] at h
        omega
      obtain ⟨hfl, hne⟩ := ih _ hlen2
      constructor
      · rw [List.flatten_cons, hfl, List.cons_append,
          specGreedy_append]
      · intro g hg
        rcases List.mem_cons.mp hg with rfl | hg
        · simp
        · exact hne g hg

theorem fillPos_partition (width : Nat) (hwpos : 1 ≤ width) (t : List Char)
    (hwords : ∀ x ∈ pyWords (linearizeL t),
      (∀ c ∈ x, ¬c = '-') ∧ x.length ≤ width) :
    fillPosL width (linearizeL t) =
      List.intercalate ['\n']
        ((greedyPartition width (pyWords (linearizeL t))).map
          (List.intercalate [' '])) := by
  have hprops := pyWords_linearize_props t
  have hch : splitChunks (munge (linearizeL t)) =
      interleave (pyWords (linearizeL t)) := by
    rw [munge_linearizeL, splitChunks_eq]
    conv_lhs => rw [← linearizeL_eq_intercal t]
    exact (chunksAux_interleave (pyWords (linearizeL t))
      (fun x hx => ⟨(hprops x hx).1,
        fun c hc => ⟨(hprops x hx).2 c hc, (hwords x hx).1 c hc⟩⟩)).1 none
  unfold fillPosL wrapLinesL
  rw [hch]
  rw [(wrapLoop_words hwpos (pyWords (linearizeL t)).length _ (Nat.le_refl _)
    (fun x hx => ⟨(hprops x hx).1, (hprops x hx).2, (hwords x hx).2⟩)).1
    false]

theorem linearize_fillPos (width : Nat) (hwpos : 1 ≤ width) (t : List Char)
    (hwords : ∀ x ∈ pyWords (linearizeL t),
      (∀ c ∈ x, ¬c = '-') ∧ x.length ≤ width) :
    linearizeL (fillPosL width (linearizeL t)) = linearizeL t := by
  have hprops := pyWords_linearize_props t
  rw [fillPos_partition width hwpos t hwords]
  obtain ⟨hfl, hgne⟩ := greedyPartition_facts width
    (pyWords (linearizeL t)).length (pyWords (linearizeL t)) (Nat.le_refl _)
  rw [linearize_out _ hgne ?hgw]
  case hgw =>
    intro g hg x hx
    have hxw : x ∈ pyWords (linearizeL t) := by
      rw [← hfl]
      exact List.mem_flatten.mpr ⟨g, hg, hx⟩
    exact hprops x hxw
  rw [hfl]
  exact linearizeL_eq_intercal t

theorem pyWordsAux_map_sigma :
    ∀ (u : List Char) (cur : List Char),
      pyWordsAux cur (u.map sigmaWS) = pyWordsAux cur u := by
  intro u
  induction u with
  | nil => intro cur; rfl
  | cons c r ih =>
    intro cur
    rw [List.map_cons, pyWordsAux_cons, pyWordsAux_cons]
    by_cases hc : isPySpace c = true
    · rw [if_pos (by rw [sigmaWS_space hc]; decide), if_pos hc]
      by_cases hcur : cur.isEmpty = true
      · rw [if_pos hcur, if_pos hcur, ih]
      · rw [if_neg hcur, if_neg hcur, ih]
    · have hc' : isPySpace c = false := by simpa using hc
      rw [sigmaWS_nospace hc', if_neg hc, if_neg hc, ih]

theorem pyWords_intercal :
    ∀ ws : List (List Char),
      (∀ x ∈ ws, x ≠ [] ∧ ∀ c ∈ x, isPySpace c = false) →
      pyWords (List.intercalate [' '] ws) = ws := by
  intro ws
  induction ws with
  | nil => intro _; rfl
  | cons w ws' ih =>
    intro h
    have hw := h w (List.mem_cons_self _ _)
    have hws' : ∀ x ∈ ws', x ≠ [] ∧ ∀ c ∈ x, isPySpace c = false :=
      fun x hx => h x (List.mem_cons_of_mem _ hx)
    cases ws' with
    | nil =>
      rw [intercal_single]
      unfold pyWords
      rw [show w = w ++ [] from (List.append_nil w).symm,
        pyWordsAux_run hw.2 [] []]
      rw [pyWordsAux_nil, List.append_nil]
      rw [if_neg (by simp [List.isEmpty_iff, hw.1])]
      rw [List.reverse_reverse, List.append_nil]
    | cons x ws'' =>
      rw [intercal_cons₂]
      unfold pyWords
      rw [pyWordsAux_run hw.2 [] (' ' :: List.intercalate [' '] (x :: ws''))]
      rw [pyWordsAux_cons, if_pos (by decide)]
      rw [if_neg (by simp [List.isEmpty_iff, hw.1]), List.append_nil,
        List.reverse_reverse]
      rw [show pyWordsAux [] (List.intercalate [' '] (x :: ws'')) =
        pyWords (List.intercalate [' '] (x :: ws'')) from rfl]
      rw [ih hws']

/-- C5 counterexample: the round-trip fails without provisos.  For the
single word `"abc"` at width 1, `textwrap` breaks the overlong word into
one-character lines, and linearizing the output gives `"a b c"`, not
`"abc"`. -/
theorem rewrap_roundtrip_cex :
    rewrap "abc" 1 = Except.ok "a\nb\nc" ∧
      linearize "a\nb\nc" ≠ linearize "abc" := by
  constructor
  · simp +decide [rewrap, fill, rewrapOkL, fillPosL, wrapLinesL, wrapLoop,
      wrapStep, greedyTake, handleLongWord, hlwEndIdx, hlwSpaceLeft,
      rfindHyphen, rfindHyphenAux, splitChunks, chunksAux, wordScan, munge,
      expandTabsAux, linearize, linearizeL, collapseWS, stripL, dropTrailWS,
      headStripEmpty, stripEmpty, sumLens]
  · decide

/-- C5 (amended): for every string `s` and every positive width, if every
word of `linearize s` contains no hyphen and is no longer than the width,
then removing newlines and collapsing whitespace in `rewrap s width`
reproduces `linearize s`.  Without those provisos the round-trip fails:
`textwrap` breaks words longer than the width and splits hyphenated words,
inserting line breaks inside what `linearize` regards as one word. -/
theorem rewrap_roundtrip (s : String) (w : Int) (hw : 0 < w)
    (hwords : ∀ x ∈ pyWords (linearizeL s.data),
      (∀ c ∈ x, ¬c = '-') ∧ x.length ≤ w.toNat) :
    (rewrap s w).map linearize = Except.ok (linearize s) := by
  rw [rewrap_pos s w hw]
  show Except.ok (String.mk (linearizeL
      (fillPosL w.toNat (linearizeL s.data)))) =
    Except.ok (String.mk (linearizeL s.data))
  rw [linearize_fillPos w.toNat (by omega) s.data hwords]

theorem rewrap_roundtrip_witness :
    (0 : Int) < 10 ∧
      (rewrap "the quick brown fox" 10).map linearize =
        Except.ok (linearize "the quick brown fox") :=
  ⟨by decide, rewrap_roundtrip "the quick brown fox" 10 (by decide)
    (by decide)⟩

/-- C2 counterexample: `rewrap` does split words.  The single word
`"abcd"` of `linearize "abcd"` does not survive wrapping at width 2: the
output is `"ab\ncd"`, whose whitespace-separated words are `"ab"` and
`"cd"`, so `"abcd"` no longer appears intact. -/
theorem rewrap_words_intact_cex :
    rewrap "abcd" 2 = Except.ok "ab\ncd" ∧
      pyWords (linearize "abcd").data = ["abcd".data] ∧
      ¬"abcd".data ∈ pyWords "ab\ncd".data := by
  refine ⟨?_, by decide, by decide⟩
  simp +decide [rewrap, fill, rewrapOkL, fillPosL, wrapLinesL, wrapLoop,
    wrapStep, greedyTake, handleLongWord, hlwEndIdx, hlwSpaceLeft,
    rfindHyphen, rfindHyphenAux, splitChunks, chunksAux, wordScan, munge,
    expandTabsAux, linearize, linearizeL, collapseWS, stripL, dropTrailWS,
    headStripEmpty, stripEmpty, sumLens]

/-- C2 (amended): for every string `s` and every positive width, if every
word of `linearize s` contains no hyphen and is no longer than the width,
then `rewrap` splits no word: the whitespace-separated words of the output
are exactly the words of `linearize s`, in order.  Without those provisos
the claim fails: `break_long_words=True` breaks a word longer than the
width into width-sized pieces instead of placing it alone on its own line,
and `break_on_hyphens=True` can split a hyphenated word across lines. -/
theorem rewrap_words_intact (s : String) (w : Int) (hw : 0 < w)
    (hwords : ∀ x ∈ pyWords (linearizeL s.data),
      (∀ c ∈ x, ¬c = '-') ∧ x.length ≤ w.toNat) :
    ∃ out, rewrap s w = Except.ok out ∧
      pyWords out.data = pyWords (linearize s).data := by
  refine ⟨_, rewrap_pos s w hw, ?_⟩
  show pyWords (fillPosL w.toNat (linearizeL s.data)) =
    pyWords (linearizeL s.data)
  have hwpos : (1 : Nat) ≤ w.toNat := by omega
  have hprops := pyWords_linearize_props s.data
  rw [fillPos_partition w.toNat hwpos s.data hwords]
  obtain ⟨hfl, hgne⟩ := greedyPartition_facts w.toNat
    (pyWords (linearizeL s.data)).length (pyWords (linearizeL s.data))
    (Nat.le_refl _)
  have hgw : ∀ g ∈ greedyPartition w.toNat (pyWords (linearizeL s.data)),
      ∀ x ∈ g, x ≠ [] ∧ ∀ c ∈ x, isPySpace c = false := by
    intro g hg x hx
    have hxw : x ∈ pyWords (linearizeL s.data) := by
      rw [← hfl]
      exact List.mem_flatten.mpr ⟨g, hg, hx⟩
    exact hprops x hxw
  have hsig := out_map_sigma
    (greedyPartition w.toNat (pyWords (linearizeL s.data))) hgw hgne
  rw [hfl] at hsig
  have h1 := pyWordsAux_map_sigma (List.intercalate ['\n']
    ((greedyPartition w.toNat (pyWords (linearizeL s.data))).map
      (List.intercalate [' ']))) []
  rw [hsig] at h1
  show pyWordsAux [] (List.intercalate ['\n']
    ((greedyPartition w.toNat (pyWords (linearizeL s.data))).map
      (List.intercalate [' ']))) = pyWords (linearizeL s.data)
  rw [← h1]
  exact pyWords_intercal _ hprops

theorem rewrap_words_intact_witness :
    (0 : Int) < 10 ∧
      ∃ out, rewrap "jumps over the lazy dog" 10 = Except.ok out ∧
        pyWords out.data =
          pyWords (linearize "jumps over the lazy dog").data :=
  ⟨by decide, rewrap_words_intact "jumps over the lazy dog" 10 (by decide)
    (by decide)⟩
